import Mathlib

/-!
Verification of the `BufferView` / `Buffer` / `TensorOrMemref` strided-view
component of the MLIR interpreter framework (tensor_or_memref.h).

The header file gives the data model and the inline member functions
(`rank`, the logical index iterator `operator++` / `begin` / `end`,
`Buffer`, `empty` / `emptyLike` / `clone` / `at` / `vectorAt` /
`operator==`); those are embedded here directly from the source.  The
out-of-line member functions (`getNumElements`, `inBounds`,
`getPhysicalIndex`, `subview`, `getDefaultStrides`, `getStridesForLayout`)
are declared in the header but their definitions are not part of this
excerpt; they are modelled from the specification, and each such
definition is marked `Modelled from the spec:`.

Machine integers (`int64_t`) are modelled as `Int`; the quantities involved
(sizes, strides, offsets, element counts) never approach 2^63 in the
scenarios considered, so overflow is not modelled.
-/

namespace TensorInterp

/-- Embedding of `struct BufferView`: a view into a physical buffer, with an
element offset, per-dimension sizes and strides, an optional count of
trailing vector dimensions, and a flag marking the view as itself being a
vector. -/
structure BufferView where
  offset : Int
  sizes : List Int
  strides : List Int
  numVectorDims : Option Int := none
  isVector : Bool := false
deriving Repr, DecidableEq

/-- Embedding of `BufferView::rank`:
`sizes.size() - numVectorDims.value_or(0)` (as a signed 64-bit quantity). -/
def BufferView.rank (v : BufferView) : Int :=
  (v.sizes.length : Int) - (v.numVectorDims.getD 0)

/-- Modelled from the spec: `BufferView::getNumElements(includeVectorDims)`
(out-of-line definition not in this excerpt) is the product of all `sizes`
entries, excluding the trailing `numVectorDims` vector dimensions unless
`includeVectorDims` is set; an empty list of sizes yields 1. -/
def BufferView.getNumElements (v : BufferView) (includeVectorDims : Bool) : Int :=
  (v.sizes.take
    (v.sizes.length -
      (if includeVectorDims then 0 else (v.numVectorDims.getD 0).toNat))).prod

/-- Modelled from the spec: `BufferView::inBounds(viewIndices)` (out-of-line
definition not in this excerpt) is true iff every index satisfies
`0 <= indices[i] < sizes[i]` for the dimensions it is paired with; a tuple
longer than `sizes` is out of bounds. -/
def BufferView.inBounds (v : BufferView) (viewIndices : List Int) : Bool :=
  decide (viewIndices.length ≤ v.sizes.length) &&
    (viewIndices.zip v.sizes).all fun p => decide (0 ≤ p.1) && decide (p.1 < p.2)

/-- Modelled from the spec: `BufferView::getPhysicalIndex(viewIndices)`
(out-of-line definition not in this excerpt) is
`offset + Σ viewIndices[i] * strides[i]`. -/
def BufferView.getPhysicalIndex (v : BufferView) (viewIndices : List Int) : Int :=
  v.offset + ((viewIndices.zip v.strides).map fun p => p.1 * p.2).sum

/-- Modelled from the spec: `BufferView::getDefaultStrides(sizes)`
(out-of-line definition not in this excerpt): row-major strides, i.e. the
stride of each dimension is the product of the sizes of all later
dimensions, the last dimension having stride 1. -/
def BufferView.getDefaultStrides : List Int → List Int
  | [] => []
  | _ :: rest => rest.prod :: BufferView.getDefaultStrides rest

/-- Modelled from the spec: `BufferView::getStridesForLayout(sizes, layout)`
(out-of-line definition not in this excerpt): `layout` is a minor-to-major
permutation of the dimensions (empty meaning row-major); the stride of
dimension `d` is the product of the sizes of the dimensions listed before
`d` in `layout`. -/
def BufferView.getStridesForLayout (sizes layout : List Int) : List Int :=
  if layout.isEmpty then BufferView.getDefaultStrides sizes
  else
    (List.range sizes.length).map fun (d : Nat) =>
      ((layout.takeWhile fun j => j ≠ (d : Int)).map fun j =>
        sizes.getD j.toNat 1).prod

/-- Embedding of the loop body of `LogicalIndexView::Iterator::operator++`:
the digits are processed from the last one backwards, so the first argument
is the reversed index tuple and the second the reversed list of enumerated
sizes.  A digit is incremented; if it stays below its size the loop stops,
otherwise the digit is reset to 0 and the carry moves on.  `none` means the
loop ran off the most significant digit (the iterator becomes the
sentinel).  The case of more digits than sizes cannot arise for the aligned
tuples the iterator produces. -/
def incrLoop : List Int → List Int → Option (List Int)
  | [], _ => none
  | _ :: _, [] => none
  | i :: is, s :: ss =>
    if i + 1 < s then some ((i + 1) :: is)
    else (incrLoop is ss).map fun r => 0 :: r

/-- The sizes paired with the iterator digits in `operator++`: the reversed
`sizes`, advanced past the `numVectorDims` trailing vector dimensions when
`includeVectorDims` is false (`std::advance(sizeIt, ...)`). -/
def BufferView.enumSizesRev (v : BufferView) (includeVectorDims : Bool) : List Int :=
  if includeVectorDims then v.sizes.reverse
  else v.sizes.reverse.drop (v.numVectorDims.getD 0).toNat

/-- The enumerated sizes in source order: all of `sizes` when
`includeVectorDims`, otherwise the leading non-vector dimensions. -/
def BufferView.enumSizes (v : BufferView) (includeVectorDims : Bool) : List Int :=
  if includeVectorDims then v.sizes
  else v.sizes.take (v.sizes.length - (v.numVectorDims.getD 0).toNat)

/-- Embedding of `Iterator::operator++` as a function on the iterator's
`viewIndices`: run the carry loop on the reversed digits; on overflow the
state becomes the sentinel `[-1]`. -/
def BufferView.iterNext (v : BufferView) (includeVectorDims : Bool)
    (viewIndices : List Int) : List Int :=
  match incrLoop viewIndices.reverse (v.enumSizesRev includeVectorDims) with
  | some r => r.reverse
  | none => [-1]

/-- Embedding of `LogicalIndexView::begin`: the sentinel `[-1]` (i.e.
`end()`) when `view->getNumElements()` — with the default
`includeVectorDims = false` — is zero, otherwise the all-zero tuple of
length `rank() + (includeVectorDims ? numVectorDims : 0)`. -/
def BufferView.beginInd (v : BufferView) (includeVectorDims : Bool) : List Int :=
  if v.getNumElements false = 0 then [-1]
  else
    List.replicate
      (v.rank + if includeVectorDims then v.numVectorDims.getD 0 else 0).toNat 0

/-- Embedding of `LogicalIndexView::end`: the sentinel state, the single
entry `-1` (iterator equality compares only `viewIndices`). -/
def BufferView.endInd : List Int := [-1]

/-- The trace of states a step function visits before reaching the sentinel
`[-1]`, cut off at `fuel` steps.  Range-based iteration over
`LogicalIndexView` visits exactly these states when `fuel` is large
enough. -/
def runTrace (step : List Int → List Int) : Nat → List Int → List (List Int)
  | 0, _ => []
  | n + 1, s => if s = [-1] then [] else s :: runTrace step n (step s)

/-- The sequence of index tuples emitted by
`for (auto& t : view.indices(includeVectorDims))`.  The fuel bound
`Π max(sizeᵢ, 1) + 1` dominates the number of states the odometer can visit
from its starting tuple, so the trace is never cut short. -/
def BufferView.emitted (v : BufferView) (includeVectorDims : Bool) :
    List (List Int) :=
  runTrace (v.iterNext includeVectorDims)
    (((v.enumSizesRev includeVectorDims).map fun s => max s 1).prod.toNat + 1)
    (v.beginInd includeVectorDims)

/-- The canonical row-major enumeration of all index tuples for a list of
dimension sizes: the first dimension varies slowest, the last dimension
varies fastest. -/
def enumIndices : List Int → List (List Int)
  | [] => [[]]
  | s :: rest =>
    (List.range s.toNat).flatMap fun (i : Nat) => (enumIndices rest).map fun t => (i : Int) :: t

/-- The same enumeration with every tuple reversed, recursing on the fastest
digit first: tuples are in reversed form, the first entry varying fastest. -/
def colexIndices : List Int → List (List Int)
  | [] => [[]]
  | s :: ss =>
    (colexIndices ss).flatMap fun t => (List.range s.toNat).map fun (i : Nat) => (i : Int) :: t

/-- The pure odometer step on reversed index tuples: run the carry loop,
falling to the sentinel on overflow. -/
def stepP (szRev : List Int) (t : List Int) : List Int :=
  match incrLoop t szRev with
  | some r => r
  | none => [-1]

/-- A step relation chain determines the trace: if `L` is a nonempty chain
of successive states, none of them the sentinel, whose last state steps to
the sentinel, then the trace from its head is exactly `L`. -/
theorem runTrace_eq_of_chain (step : List Int → List Int) :
    ∀ (L : List (List Int)) (x : List Int) (fuel : Nat),
      L.head? = some x →
      List.Chain' (fun a b => step a = b) L →
      (∀ t ∈ L, t ≠ [-1]) →
      (∀ t, L.getLast? = some t → step t = [-1]) →
      L.length < fuel →
      runTrace step fuel x = L := by
  intro L
  induction L with
  | nil => intro x fuel h; simp at h
  | cons a rest ih =>
    intro x fuel hhead hchain hmem hlast hfuel
    have hax : a = x := by simpa using hhead
    subst hax
    obtain ⟨m, rfl⟩ : ∃ m, fuel = m + 1 := ⟨fuel - 1, by omega⟩
    rw [runTrace]
    rw [if_neg (by exact hmem a (by simp))]
    cases rest with
    | nil =>
      have hx : step a = [-1] := hlast a (by simp)
      rw [hx]
      cases m with
      | zero => simp at hfuel
      | succ k => simp [runTrace]
    | cons b rest2 =>
      have hxb : step a = b := (List.chain'_cons.mp hchain).1
      rw [hxb]
      congr 1
      exact ih b m rfl (List.chain'_cons.mp hchain).2
        (fun t ht => hmem t (by simp [ht]))
        (fun t ht => hlast t (by rw [List.getLast?_cons_cons]; exact ht))
        (by simp at hfuel ⊢; omega)

/-- Iterating the step function along a chain: the `n`-th iterate from the
head is the `n`-th state of the chain, and one past the end it is the
sentinel. -/
theorem iterate_eq_of_chain (step : List Int → List Int) :
    ∀ (L : List (List Int)) (x : List Int),
      L.head? = some x →
      List.Chain' (fun a b => step a = b) L →
      (∀ t, L.getLast? = some t → step t = [-1]) →
      ∀ n, n ≤ L.length → step^[n] x = L.getD n [-1] := by
  intro L
  induction L with
  | nil => intro x h; simp at h
  | cons a rest ih =>
    intro x hhead hchain hlast n hn
    have hax : a = x := by simpa using hhead
    subst hax
    cases n with
    | zero => simp
    | succ k =>
      rw [Function.iterate_succ_apply]
      cases rest with
      | nil =>
        have hk : k = 0 := by simp at hn; omega
        subst hk
        have hx : step a = [-1] := hlast a (by simp)
        simp [hx]
      | cons b rest2 =>
        have hxb : step a = b := (List.chain'_cons.mp hchain).1
        rw [hxb]
        have := ih b rfl (List.chain'_cons.mp hchain).2
          (fun t ht => hlast t (by rw [List.getLast?_cons_cons]; exact ht))
          k (by simp at hn ⊢; omega)
        simpa using this

/-- One block of the colex enumeration: the fastest digit sweeps `0..s-1`
in front of a fixed tail `t`. -/
def block (s : Int) (t : List Int) : List (List Int) :=
  (List.range s.toNat).map fun (i : Nat) => (i : Int) :: t

theorem colexIndices_cons (s : Int) (ss : List Int) :
    colexIndices (s :: ss) = (colexIndices ss).flatMap (block s) := rfl

theorem block_ne_nil {s : Int} (hs : 0 < s) (t : List Int) : block s t ≠ [] := by
  simp only [block, ne_eq, List.map_eq_nil_iff, List.range_eq_nil]
  omega

theorem block_head {s : Int} (hs : 0 < s) (t : List Int) :
    (block s t).head? = some (0 :: t) := by
  obtain ⟨k, hk⟩ : ∃ k, s.toNat = k + 1 := ⟨s.toNat - 1, by omega⟩
  simp [block, hk, List.range_succ_eq_map]

theorem block_last {s : Int} (hs : 0 < s) (t : List Int) :
    (block s t).getLast? = some ((s - 1) :: t) := by
  obtain ⟨k, hk⟩ : ∃ k, s.toNat = k + 1 := ⟨s.toNat - 1, by omega⟩
  have hks : (k : Int) = s - 1 := by omega
  simp [block, hk, List.range_succ, hks]

theorem block_chain {s : Int} (hs : 0 < s) (ss : List Int) (t : List Int) :
    List.Chain' (fun a b => incrLoop a (s :: ss) = some b) (block s t) := by
  obtain ⟨k, hk⟩ : ∃ k, s.toNat = k + 1 := ⟨s.toNat - 1, by omega⟩
  rw [block, hk]
  refine (List.chain'_map (fun i : Nat => ((i : Int) :: t))).mpr ?_
  refine (List.chain'_range_succ _ k).mpr ?_
  intro m hm
  have h1 : (m : Int) + 1 < s := by omega
  rw [incrLoop, if_pos h1]
  congr 2

/-- Concatenating the blocks of a chain of tails yields a chain for the
extended size list, whose head and last tuples extend those of the tails. -/
theorem blocks_chain {s : Int} (hs : 0 < s) (ss : List Int) :
    ∀ C : List (List Int), List.Chain' (fun a b => incrLoop a ss = some b) C →
      List.Chain' (fun a b => incrLoop a (s :: ss) = some b) (C.flatMap (block s)) ∧
      (C.flatMap (block s)).head? = C.head?.map (fun t => 0 :: t) ∧
      (C.flatMap (block s)).getLast? = C.getLast?.map fun t => (s - 1) :: t := by
  intro C
  induction C with
  | nil => intro _; simp
  | cons t C2 ih =>
    intro hchain
    have hC2 := (List.chain'_cons'.mp hchain).2
    obtain ⟨ihc, ihh, ihl⟩ := ih hC2
    rw [List.flatMap_cons]
    refine ⟨?_, ?_, ?_⟩
    · refine (block_chain hs ss t).append ihc ?_
      intro x hx y hy
      rw [block_last hs t] at hx
      simp at hx
      subst hx
      cases C2 with
      | nil => simp at hy
      | cons u C3 =>
        rw [ihh] at hy
        simp at hy
        have hrel : incrLoop t ss = some u := (List.chain'_cons.mp hchain).1
        rw [incrLoop, if_neg (by omega), hrel]
        simp [hy]
    · rw [List.head?_append_of_ne_nil _ (block_ne_nil hs t), block_head hs t]
      simp
    · cases C2 with
      | nil => simp [block_last hs t]
      | cons u C3 =>
        have hne : (u :: C3).flatMap (block s) ≠ [] := by
          rw [List.flatMap_cons]
          exact List.append_ne_nil_of_left_ne_nil (block_ne_nil hs u) _
        rw [List.getLast?_append_of_ne_nil _ hne, ihl]
        simp

/-- For positive sizes, the colex enumeration starts at the all-zero tuple,
successive tuples are related by the carry loop, and the carry loop
overflows exactly on the last tuple. -/
theorem colex_spec : ∀ szRev : List Int, (∀ s ∈ szRev, 0 < s) →
    (colexIndices szRev).head? = some (List.replicate szRev.length 0) ∧
    List.Chain' (fun a b => incrLoop a szRev = some b) (colexIndices szRev) ∧
    ∀ t, (colexIndices szRev).getLast? = some t → incrLoop t szRev = none := by
  intro szRev
  induction szRev with
  | nil =>
    intro _
    refine ⟨by simp [colexIndices], by simp [colexIndices], ?_⟩
    intro t ht
    simp [colexIndices] at ht
    subst ht
    rfl
  | cons s ss ih =>
    intro hpos
    have hs : 0 < s := hpos s (by simp)
    obtain ⟨ihh, ihc, ihl⟩ := ih fun u hu => hpos u (by simp [hu])
    obtain ⟨bc, bh, bl⟩ := blocks_chain hs ss (colexIndices ss) ihc
    rw [colexIndices_cons]
    refine ⟨?_, bc, ?_⟩
    · rw [bh, ihh]
      simp [List.replicate_succ]
    · intro t ht
      rw [bl] at ht
      cases hgl : (colexIndices ss).getLast? with
      | none => rw [hgl] at ht; simp at ht
      | some u =>
        rw [hgl] at ht
        simp at ht
        subst ht
        rw [incrLoop, if_neg (by omega), ihl u hgl]
        rfl

/-- Membership in the colex enumeration is exactly digit-wise bounds. -/
theorem colex_mem : ∀ (szRev t : List Int),
    t ∈ colexIndices szRev ↔ List.Forall₂ (fun d s => 0 ≤ d ∧ d < s) t szRev := by
  intro szRev
  induction szRev with
  | nil =>
    intro t
    simp [colexIndices, List.forall₂_nil_right_iff]
  | cons s ss ih =>
    intro t
    rw [colexIndices_cons]
    simp only [List.mem_flatMap, block, List.mem_map, List.mem_range]
    constructor
    · rintro ⟨u, hu, i, hi, rfl⟩
      have hsn : 0 < s.toNat := by omega
      refine List.forall₂_cons.mpr ⟨⟨by positivity, ?_⟩, (ih u).mp hu⟩
      omega
    · intro h
      cases t with
      | nil => exact absurd h (by simp)
      | cons d u =>
        obtain ⟨⟨hd0, hds⟩, hu⟩ := List.forall₂_cons.mp h
        exact ⟨u, (ih u).mpr hu, d.toNat, by omega, by simp [Int.toNat_of_nonneg hd0]⟩

/-- Membership in the row-major enumeration is exactly digit-wise bounds. -/
theorem enum_mem : ∀ (sizes t : List Int),
    t ∈ enumIndices sizes ↔ List.Forall₂ (fun d s => 0 ≤ d ∧ d < s) t sizes := by
  intro sizes
  induction sizes with
  | nil =>
    intro t
    simp [enumIndices, List.forall₂_nil_right_iff]
  | cons s ss ih =>
    intro t
    rw [enumIndices]
    simp only [List.mem_flatMap, List.mem_map, List.mem_range]
    constructor
    · rintro ⟨i, hi, u, hu, rfl⟩
      refine List.forall₂_cons.mpr ⟨⟨by positivity, by omega⟩, (ih u).mp hu⟩
    · intro h
      cases t with
      | nil => exact absurd h (by simp)
      | cons d u =>
        obtain ⟨⟨hd0, hds⟩, hu⟩ := List.forall₂_cons.mp h
        exact ⟨d.toNat, by omega, u, (ih u).mpr hu, by simp [Int.toNat_of_nonneg hd0]⟩

/-- The row-major enumeration has one element per index tuple. -/
theorem enum_length : ∀ sizes : List Int,
    (enumIndices sizes).length = (sizes.map Int.toNat).prod := by
  intro sizes
  induction sizes with
  | nil => simp [enumIndices]
  | cons s ss ih =>
    rw [enumIndices, List.length_flatMap]
    have hcomp :
        (List.length ∘ fun i : Nat => (enumIndices ss).map fun t => (i : Int) :: t) =
          fun _ : Nat => (enumIndices ss).length := by
      funext i
      simp
    rw [hcomp, List.map_const', List.sum_replicate, List.length_range, smul_eq_mul,
      List.map_cons, List.prod_cons, ih]

/-- The row-major enumeration never repeats a tuple. -/
theorem enum_nodup : ∀ sizes : List Int, (enumIndices sizes).Nodup := by
  intro sizes
  induction sizes with
  | nil => simp [enumIndices]
  | cons s ss ih =>
    rw [enumIndices]
    refine List.nodup_flatMap.mpr ⟨?_, ?_⟩
    · intro i _
      exact ih.map fun a b hab => by simpa using hab
    · refine (List.nodup_range _).pairwise_of_forall_ne ?_
      intro i hi j hj hij
      simp only [List.disjoint_left, List.mem_map]
      rintro x ⟨u, _, rfl⟩ ⟨w, _, hw⟩
      apply hij
      have := (List.cons.injEq _ _ _ _).mp hw
      omega

/-- Appending a (slowest) size at the end of the colex size list groups the
enumeration into outer sweeps of the new digit. -/
theorem colex_append : ∀ (xs : List Int) (s : Int),
    colexIndices (xs ++ [s]) =
      (List.range s.toNat).flatMap fun (j : Nat) =>
        (colexIndices xs).map fun t => t ++ [(j : Int)] := by
  intro xs
  induction xs with
  | nil =>
    intro s
    simp only [List.nil_append, colexIndices, List.flatMap_singleton, List.map_nil,
      List.map_cons, List.nil_append]
    exact (List.flatMap_pure_eq_map (fun j : Nat => [(j : Int)])
      (List.range s.toNat)).symm
  | cons x xs ih =>
    intro s
    rw [List.cons_append, colexIndices, ih, colexIndices]
    simp [List.flatMap_map, List.map_flatMap, List.flatMap_assoc, List.map_map,
      Function.comp_def]

/-- The colex enumeration of the reversed sizes is the row-major enumeration
with every tuple reversed. -/
theorem colex_reverse : ∀ sizes : List Int,
    colexIndices sizes.reverse = (enumIndices sizes).map List.reverse := by
  intro sizes
  induction sizes with
  | nil => simp [colexIndices, enumIndices]
  | cons s rest ih =>
    rw [List.reverse_cons, colex_append, ih, enumIndices]
    simp only [List.map_flatMap, List.map_map]
    congr 1
    funext j
    congr 1
    funext t
    simp [Function.comp]

/-- `operator++` is the pure reversed-digit step conjugated by reversal. -/
theorem iterNext_conj (v : BufferView) (incl : Bool) (x : List Int) :
    v.iterNext incl x = (stepP (v.enumSizesRev incl) x.reverse).reverse := by
  rw [BufferView.iterNext, stepP]
  cases incrLoop x.reverse (v.enumSizesRev incl) <;> rfl

/-- Traces of a reversal-conjugated step are reversals of pure traces. -/
theorem runTrace_conj (step : List Int → List Int) :
    ∀ (fuel : Nat) (x : List Int),
      runTrace (fun t => (step t.reverse).reverse) fuel x =
        (runTrace step fuel x.reverse).map List.reverse := by
  intro fuel
  induction fuel with
  | zero => intro x; simp [runTrace]
  | succ n ih =>
    intro x
    rw [runTrace, runTrace]
    by_cases h : x = [-1]
    · subst h
      rw [if_pos rfl, if_pos (by rfl)]
      rfl
    · have hrev : ¬x.reverse = [-1] := by
        intro hc
        exact h (by simpa using congrArg List.reverse hc)
      rw [if_neg h, if_neg hrev, List.map_cons, List.reverse_reverse, ih]
      rw [List.reverse_reverse]

/-- Iterates of a reversal-conjugated step are reversals of pure iterates. -/
theorem iterate_conj (step : List Int → List Int) :
    ∀ (n : Nat) (x : List Int),
      (fun t => (step t.reverse).reverse)^[n] x = ((step^[n]) x.reverse).reverse := by
  intro n
  induction n with
  | zero => intro x; simp
  | succ k ih =>
    intro x
    rw [Function.iterate_succ_apply, Function.iterate_succ_apply, ih,
      List.reverse_reverse]

/-- The reversed enumerated sizes are the reversal of the enumerated sizes. -/
theorem enumSizesRev_eq (v : BufferView) (incl : Bool) :
    v.enumSizesRev incl = (v.enumSizes incl).reverse := by
  rw [BufferView.enumSizesRev, BufferView.enumSizes]
  cases incl with
  | true => simp
  | false => simp [List.drop_reverse]

theorem prod_toNat {sizes : List Int} (h : ∀ s ∈ sizes, 0 ≤ s) :
    ((sizes.map Int.toNat).prod : Int) = sizes.prod := by
  induction sizes with
  | nil => simp
  | cons s ss ih =>
    simp only [List.map_cons, List.prod_cons, Nat.cast_mul]
    rw [ih fun u hu => h u (by simp [hu]), Int.toNat_of_nonneg (h s (by simp))]

theorem getNumElements_eq (v : BufferView) (incl : Bool) :
    v.getNumElements incl = (v.enumSizes incl).prod := by
  rw [BufferView.getNumElements, BufferView.enumSizes]
  cases incl with
  | true => simp
  | false => simp

theorem enumSizes_sublist (v : BufferView) (incl : Bool) :
    ∀ s ∈ v.enumSizes incl, s ∈ v.sizes := by
  intro s hs
  rw [BufferView.enumSizes] at hs
  cases incl with
  | true => simpa using hs
  | false => exact List.mem_of_mem_take (by simpa using hs)

theorem zip_take_eq {α β : Type} :
    ∀ (t : List α) (l : List β) (k : Nat), t.length ≤ k →
      t.zip (l.take k) = t.zip l := by
  intro t
  induction t with
  | nil => intro l k _; simp
  | cons a t ih =>
    intro l k hk
    cases l with
    | nil => simp
    | cons b l =>
      obtain ⟨m, rfl⟩ : ∃ m, k = m + 1 := ⟨k - 1, by simp at hk; omega⟩
      simp only [List.take_succ_cons, List.zip_cons_cons]
      rw [ih l m (by simpa using hk)]

/-- Digit-wise bounds over the enumerated sizes coincide with the source's
`inBounds` check on the full size list for tuples of enumerated length. -/
theorem forall2_iff_inBounds (v : BufferView) (incl : Bool) (t : List Int) :
    List.Forall₂ (fun d s => 0 ≤ d ∧ d < s) t (v.enumSizes incl) ↔
      t.length = (v.enumSizes incl).length ∧ v.inBounds t = true := by
  have hE : v.enumSizes incl = v.sizes.take (v.enumSizes incl).length := by
    rw [BufferView.enumSizes]
    cases incl with
    | true => simp
    | false => simp [List.take_take]
  have hElen : (v.enumSizes incl).length ≤ v.sizes.length := by
    conv_lhs => rw [hE]
    simp
  constructor
  · intro h
    obtain ⟨hlen, hpairs⟩ := List.forall₂_iff_zip.mp h
    have hzip : t.zip (v.enumSizes incl) = t.zip v.sizes := by
      conv_lhs => rw [hE]
      exact zip_take_eq t v.sizes _ (by omega)
    refine ⟨hlen, ?_⟩
    rw [BufferView.inBounds]
    simp only [Bool.and_eq_true, decide_eq_true_eq, List.all_eq_true]
    refine ⟨by omega, ?_⟩
    intro p hp
    rw [← hzip] at hp
    exact hpairs hp
  · rintro ⟨hlen, hb⟩
    rw [BufferView.inBounds] at hb
    simp only [Bool.and_eq_true, decide_eq_true_eq, List.all_eq_true] at hb
    have hzip : t.zip (v.enumSizes incl) = t.zip v.sizes := by
      conv_lhs => rw [hE]
      exact zip_take_eq t v.sizes _ (by omega)
    refine List.forall₂_iff_zip.mpr ⟨hlen, ?_⟩
    intro a b hab
    rw [hzip] at hab
    have := hb.2 (a, b) hab
    simp only [Bool.and_eq_true, decide_eq_true_eq] at this
    exact this

theorem colex_not_sentinel {szRev : List Int} (hpos : ∀ s ∈ szRev, 0 < s) :
    ∀ t ∈ colexIndices szRev, t ≠ [-1] := by
  intro t ht hsent
  subst hsent
  have hf := (colex_mem szRev [-1]).mp ht
  cases szRev with
  | nil => exact absurd hf (by simp)
  | cons s ss =>
    obtain ⟨⟨h1, _⟩, _⟩ := List.forall₂_cons.mp hf
    omega

/-- Under the structural invariants and the begin-check consistency
hypothesis, the iterator visits exactly the row-major enumeration of the
enumerated sizes, and one step past its last tuple it is the sentinel. -/
theorem emitted_spec (v : BufferView) (incl : Bool)
    (hsz : ∀ s ∈ v.sizes, 0 ≤ s)
    (hnvd0 : 0 ≤ v.numVectorDims.getD 0)
    (hnvdlen : v.numVectorDims.getD 0 ≤ (v.sizes.length : Int))
    (hzero : v.getNumElements incl = 0 → v.getNumElements false = 0) :
    v.emitted incl = enumIndices (v.enumSizes incl) ∧
    (∀ n (hn : n < (enumIndices (v.enumSizes incl)).length),
      (v.iterNext incl)^[n] (v.beginInd incl)
        = (enumIndices (v.enumSizes incl)).get ⟨n, hn⟩) ∧
    (v.iterNext incl)^[(enumIndices (v.enumSizes incl)).length] (v.beginInd incl)
      = [-1] := by
  by_cases hNE : v.getNumElements false = 0
  · -- the empty case: begin() is already the sentinel
    have h0f : (v.enumSizes false).prod = 0 := by
      rw [← getNumElements_eq]; exact hNE
    have hcmem : (0 : Int) ∈ v.enumSizes false := List.prod_eq_zero_iff.mp h0f
    have hz : (0 : Int) ∈ v.enumSizes incl := by
      cases incl with
      | false => exact hcmem
      | true =>
        have h1 : (0 : Int) ∈ v.sizes :=
          List.mem_of_mem_take (by simpa [BufferView.enumSizes] using hcmem)
        simpa [BufferView.enumSizes] using h1
    have hL0 : enumIndices (v.enumSizes incl) = [] := by
      have hlen : (enumIndices (v.enumSizes incl)).length = 0 := by
        rw [enum_length]
        refine List.prod_eq_zero ?_
        simp only [List.mem_map]
        exact ⟨0, hz, rfl⟩
      exact List.eq_nil_of_length_eq_zero hlen
    have hbegin : v.beginInd incl = [-1] := by
      rw [BufferView.beginInd, if_pos hNE]
    refine ⟨?_, ?_, ?_⟩
    · rw [BufferView.emitted, hbegin, hL0, runTrace, if_pos rfl]
    · intro n hn
      rw [hL0] at hn
      exact absurd hn (by simp)
    · rw [hL0, hbegin]
      simp
  · -- the nonempty case: the odometer sweeps the whole enumeration
    set E := v.enumSizes incl with hEdef
    have hpos : ∀ s ∈ E, 0 < s := by
      intro s hs
      have h0 : 0 ≤ s := hsz s (enumSizes_sublist v incl s hs)
      rcases h0.lt_or_eq with h | h
      · exact h
      · exfalso
        apply hNE
        apply hzero
        rw [getNumElements_eq]
        exact List.prod_eq_zero (by rw [← h] at hs; exact hs)
    have hposRev : ∀ s ∈ E.reverse, 0 < s := fun s hs =>
      hpos s (List.mem_reverse.mp hs)
    obtain ⟨hh, hc, hl⟩ := colex_spec E.reverse hposRev
    have hrev : v.enumSizesRev incl = E.reverse := enumSizesRev_eq v incl
    have hCL : colexIndices E.reverse = (enumIndices E).map List.reverse :=
      colex_reverse E
    have hc' : List.Chain' (fun a b => stepP E.reverse a = b)
        (colexIndices E.reverse) :=
      hc.imp fun a b h => by simp [stepP, h]
    have hl' : ∀ t, (colexIndices E.reverse).getLast? = some t →
        stepP E.reverse t = [-1] :=
      fun t ht => by simp [stepP, hl t ht]
    have hmem : ∀ t ∈ colexIndices E.reverse, t ≠ [-1] :=
      colex_not_sentinel hposRev
    have hClen : (colexIndices E.reverse).length = (enumIndices E).length := by
      rw [hCL, List.length_map]
    have hLlen : (enumIndices E).length = E.prod.toNat := by
      rw [enum_length]
      have := prod_toNat fun s hs => (hpos s hs).le
      omega
    have hbegin : v.beginInd incl = List.replicate E.reverse.length 0 := by
      rw [BufferView.beginInd, if_neg hNE, List.length_reverse]
      congr 1
      rw [BufferView.rank]
      have hm0 : (0 : Int) ≤ v.numVectorDims.getD 0 := hnvd0
      cases incl with
      | true =>
        rw [if_pos rfl]
        have : (E.length : Int) = v.sizes.length := by
          rw [hEdef, BufferView.enumSizes, if_pos rfl]
        omega
      | false =>
        rw [if_neg (by simp)]
        have : E.length = v.sizes.length - (v.numVectorDims.getD 0).toNat := by
          rw [hEdef, BufferView.enumSizes, if_neg (by simp), List.length_take]
          omega
        omega
    have hstep : v.iterNext incl = fun t => (stepP E.reverse t.reverse).reverse :=
      funext fun x => by rw [iterNext_conj, hrev]
    have hfuel :
        ((v.enumSizesRev incl).map fun s => max s 1).prod.toNat + 1 =
          (enumIndices E).length + 1 := by
      have hmx : ∀ a ∈ E.reverse, max a 1 = a := fun a ha =>
        max_eq_left (by have := hposRev a ha; omega)
      have hmax : (v.enumSizesRev incl).map (fun s => max s 1)
          = v.enumSizesRev incl := by
        rw [hrev]
        exact (List.map_congr_left hmx).trans (List.map_id' _)
      rw [hmax, hrev, List.prod_reverse, hLlen]
    have htrace : runTrace (stepP E.reverse)
        (((v.enumSizesRev incl).map fun s => max s 1).prod.toNat + 1)
        (List.replicate E.reverse.length 0) = colexIndices E.reverse := by
      refine runTrace_eq_of_chain _ _ _ _ hh hc' hmem hl' ?_
      rw [hfuel, hClen]
      omega
    refine ⟨?_, ?_, ?_⟩
    · rw [BufferView.emitted, hbegin, hstep, runTrace_conj,
        List.reverse_replicate, htrace, hCL, List.map_map]
      simp
    · intro n hn
      rw [hbegin, hstep, iterate_conj, List.reverse_replicate]
      rw [iterate_eq_of_chain _ _ _ hh hc' hl' n (by omega),
        List.getD_eq_getElem _ _ (by omega)]
      simp [hCL]
    · rw [hbegin, hstep, iterate_conj, List.reverse_replicate]
      rw [← hClen,
        iterate_eq_of_chain _ _ _ hh hc' hl' _ (le_refl _)]
      rw [List.getD_eq_default _ _ (le_refl _)]
      rfl

/-- A tensor-of-vectors view with tensor shape [2] and vector shape [0]:
its tensor element count is 2, but its total element count (vector lanes
included) is 0. -/
def ceView : BufferView :=
  { offset := 0, sizes := [2, 0], strides := [0, 1], numVectorDims := some 1 }

/-- Claim C1, counterexample: for the view `ceView` (tensor shape [2],
vector shape [0]) with `includeVectorDims = true`, the iterator emits the
tuple [0, 0] even though it is out of bounds, and the number of emitted
tuples (2) differs from `getNumElements(true)` (0): `begin()` only checks
`getNumElements(false)`, which is 2 here. -/
theorem C1_counterexample :
    [0, 0] ∈ ceView.emitted true ∧
    ceView.inBounds [0, 0] = false ∧
    ((ceView.emitted true).length : Int) ≠ ceView.getNumElements true := by
  refine ⟨?_, by decide, by decide⟩
  have h : ceView.emitted true = [[0, 0], [1, 0]] := by decide
  rw [h]
  simp

/-- Claim C1 (amended): for every structurally well-formed view (sizes
nonnegative, `0 ≤ numVectorDims ≤ sizes.length`) such that the enumerated
element count `getNumElements(includeVectorDims)` is zero only when the
count `getNumElements(false)` checked by `begin()` is also zero (always
true for `includeVectorDims = false`, and true for `includeVectorDims =
true` unless a vector dimension is zero while the tensor dimensions are
not), the sequence produced by `indices(includeVectorDims)` is exactly the
row-major enumeration of the view's enumerated sizes (last dimension
fastest): every emitted tuple is in bounds, each in-bounds tuple over the
included dimensions appears exactly once, the number of emitted tuples is
`getNumElements(includeVectorDims)`, and one increment past the last tuple
the iterator is the terminal sentinel `[-1]` (the `end()` state). -/
theorem C1_indices_enumeration (v : BufferView) (incl : Bool)
    (hsz : ∀ s ∈ v.sizes, 0 ≤ s)
    (hnvd0 : 0 ≤ v.numVectorDims.getD 0)
    (hnvdlen : v.numVectorDims.getD 0 ≤ (v.sizes.length : Int))
    (hzero : v.getNumElements incl = 0 → v.getNumElements false = 0) :
    v.emitted incl = enumIndices (v.enumSizes incl) ∧
    (∀ t, t ∈ v.emitted incl ↔
      t.length = (v.enumSizes incl).length ∧ v.inBounds t = true) ∧
    (v.emitted incl).Nodup ∧
    ((v.emitted incl).length : Int) = v.getNumElements incl ∧
    (∀ n (hn : n < (v.emitted incl).length),
      (v.iterNext incl)^[n] (v.beginInd incl) = (v.emitted incl).get ⟨n, hn⟩) ∧
    (v.iterNext incl)^[(v.emitted incl).length] (v.beginInd incl)
      = BufferView.endInd := by
  obtain ⟨he, hit, hsent⟩ := emitted_spec v incl hsz hnvd0 hnvdlen hzero
  have hnon : ∀ s ∈ v.enumSizes incl, 0 ≤ s := fun s hs =>
    hsz s (enumSizes_sublist v incl s hs)
  refine ⟨he, ?_, ?_, ?_, ?_, ?_⟩
  · intro t
    rw [he, enum_mem, forall2_iff_inBounds]
  · rw [he]; exact enum_nodup _
  · rw [he, enum_length, prod_toNat hnon, getNumElements_eq]
  · intro n hn
    rw [List.get_of_eq he ⟨n, hn⟩]
    exact hit n (he ▸ hn)
  · rw [he]
    exact hsent

/-- Claim C1, witness: a 2x3 view enumerated without vector dimensions
satisfies the amended statement, its emitted sequence being the six
row-major tuples. -/
theorem C1_witness :
    (∀ s ∈ ({ offset := 0, sizes := [2, 3], strides := [3, 1] } :
        BufferView).sizes, 0 ≤ s) ∧
    ({ offset := 0, sizes := [2, 3], strides := [3, 1] } :
        BufferView).emitted false =
      [[0, 0], [0, 1], [0, 2], [1, 0], [1, 1], [1, 2]] := by
  refine ⟨by decide, ?_⟩
  have h := (C1_indices_enumeration
    { offset := 0, sizes := [2, 3], strides := [3, 1] } false
    (by decide) (by decide) (by decide) (by decide)).1
  rw [h]
  decide

/-- Claim C2, counterexample: `ceView` with `includeVectorDims = true` has
`getNumElements(true) = 0`, yet `begin()` (which checks
`getNumElements(false) = 2`) differs from `end()` and the iteration emits
tuples. -/
theorem C2_counterexample :
    ceView.getNumElements true = 0 ∧
    ceView.beginInd true ≠ BufferView.endInd ∧
    ceView.emitted true ≠ [] := by
  refine ⟨by decide, by decide, ?_⟩
  have h : ceView.emitted true = [[0, 0], [1, 0]] := by decide
  rw [h]
  simp

/-- Claim C2 (amended): if the element count checked by `begin()` —
`getNumElements(false)`, the count excluding vector dimensions — is zero,
then for either flag the sequence is immediately empty: `begin()` equals
`end()` and no tuples are emitted.  (The claim as stated, with
`getNumElements(includeVectorDims)`, fails when only a vector dimension is
zero and `includeVectorDims` is true.) -/
theorem C2_empty_sequence (v : BufferView) (incl : Bool)
    (h0 : v.getNumElements false = 0) :
    v.beginInd incl = BufferView.endInd ∧ v.emitted incl = [] := by
  have hbegin : v.beginInd incl = [-1] := by
    rw [BufferView.beginInd, if_pos h0]
  refine ⟨hbegin, ?_⟩
  rw [BufferView.emitted, hbegin, runTrace, if_pos rfl]

/-- Claim C2, witness: a view with a zero-sized tensor dimension emits
nothing and starts at the sentinel. -/
theorem C2_witness :
    ({ offset := 0, sizes := [0, 4], strides := [4, 1] } :
        BufferView).getNumElements false = 0 ∧
    ({ offset := 0, sizes := [0, 4], strides := [4, 1] } :
        BufferView).beginInd true = BufferView.endInd ∧
    ({ offset := 0, sizes := [0, 4], strides := [4, 1] } :
        BufferView).emitted true = [] := by
  refine ⟨by decide, ?_⟩
  exact C2_empty_sequence
    { offset := 0, sizes := [0, 4], strides := [4, 1] } true (by decide)

/-- Embedding of `class Buffer`: backing storage for a `TensorOrMemref`.
The C++ buffer is an untyped byte vector of `numElements * elementSize`
bytes accessed through `reinterpret_cast<T*>` at element granularity; it is
modelled as a typed element array together with the element size, so
`getByteSize` is `storage.size * elemSize`.  Element reads and writes out
of the allocated range, and reads and writes through a deallocated buffer,
are undefined behaviour in C++ (the latter asserts); the total model makes
out-of-range writes no-ops and out-of-range reads `default`, and the
asserting accessors are modelled separately as `Option`-returning
functions. -/
structure Buffer (τ : Type) where
  storage : Array τ
  elemSize : Nat
  isDeallocated : Bool := false
deriving Repr, DecidableEq

/-- Embedding of `Buffer::allocate<T>(size)`: a fresh zero-initialised
buffer of `size` elements of `sizeof(T) = es` bytes each (a negative
requested size, which C++ would convert to a huge `size_t`, is out of
scope and clamped). -/
def Buffer.allocate (τ : Type) [Inhabited τ] (size : Int) (es : Nat) : Buffer τ :=
  { storage := Array.mkArray size.toNat default, elemSize := es }

/-- The value read through `Buffer::at(idx, elementSize)` when the
assertion passes (total model; out-of-range reads C++ garbage, modelled as
`default`). -/
def Buffer.read {τ : Type} [Inhabited τ] (b : Buffer τ) (idx : Int) : τ :=
  b.storage.getD idx.toNat default

/-- A write through the pointer returned by `Buffer::at` (total model;
out-of-range writes are undefined behaviour in C++ and modelled as
no-ops). -/
def Buffer.write {τ : Type} (b : Buffer τ) (idx : Int) (x : τ) : Buffer τ :=
  { b with storage := if idx < 0 then b.storage else b.storage.setD idx.toNat x }

/-- Embedding of `Buffer::at` as it checks its assertion: `none` when the
buffer is deallocated (the assertion fires), otherwise the stored value. -/
def Buffer.atChecked {τ : Type} [Inhabited τ] (b : Buffer τ) (idx : Int) :
    Option τ :=
  if b.isDeallocated then none else some (b.read idx)

/-- Embedding of `Buffer::getByteSize`: `storage.size()` bytes, i.e. the
number of elements times the element size. -/
def Buffer.getByteSize {τ : Type} (b : Buffer τ) : Int :=
  ((b.storage.size * b.elemSize : Nat) : Int)

/-- Embedding of `Buffer::deallocate`: set the flag. -/
def Buffer.deallocate {τ : Type} (b : Buffer τ) : Buffer τ :=
  { b with isDeallocated := true }

/-- Embedding of `Buffer::deallocated`. -/
def Buffer.deallocated {τ : Type} (b : Buffer τ) : Bool :=
  b.isDeallocated

/-- Embedding of `struct TensorOrMemref<T>`: a shared buffer plus a view.
Buffer sharing (C++ `shared_ptr`) is modelled by value equality of the
`buffer` field; none of the verified operations mutates a shared buffer in
place. -/
structure TensorOrMemref (τ : Type) where
  buffer : Buffer τ
  view : BufferView
deriving Repr

/-- Embedding of `TensorOrMemref::emptyLike(view, layout)`: copy the view,
reset the offset to 0, recompute the strides from `layout`, and allocate a
fresh buffer of `view.getNumElements(true)` elements; `es` stands for
`sizeof(T)`. -/
def TensorOrMemref.emptyLike (τ : Type) [Inhabited τ] (es : Nat)
    (view : BufferView) (layout : List Int) : TensorOrMemref τ :=
  { buffer := Buffer.allocate τ (view.getNumElements true) es,
    view := { view with
      offset := 0,
      strides := BufferView.getStridesForLayout view.sizes layout } }

/-- Embedding of `TensorOrMemref::empty(sizes, layout)`: `emptyLike` of the
dummy view `{0, sizes, {}}`. -/
def TensorOrMemref.empty (τ : Type) [Inhabited τ] (es : Nat)
    (sizes : List Int) (layout : List Int) : TensorOrMemref τ :=
  TensorOrMemref.emptyLike τ es
    { offset := 0, sizes := sizes, strides := [] } layout

/-- The value produced by `TensorOrMemref::at(indices)` when its assertions
pass (total model used by `clone` and `operator==`, whose loops only reach
it with the assertions holding). -/
def TensorOrMemref.atVal {τ : Type} [Inhabited τ] (t : TensorOrMemref τ)
    (indices : List Int) : τ :=
  t.buffer.read (t.view.getPhysicalIndex indices)

/-- Embedding of `TensorOrMemref::at(indices)` as it checks its contract:
`none` when `view.inBounds(indices)` fails (the `at` assertion) or the
buffer is deallocated (the `Buffer::at` assertion). -/
def TensorOrMemref.atChecked {τ : Type} [Inhabited τ] (t : TensorOrMemref τ)
    (indices : List Int) : Option τ :=
  if t.view.inBounds indices = false then none
  else t.buffer.atChecked (t.view.getPhysicalIndex indices)

/-- A store through `at(indices)` on the mutable overload. -/
def TensorOrMemref.store {τ : Type} (t : TensorOrMemref τ)
    (indices : List Int) (x : τ) : TensorOrMemref τ :=
  { t with buffer := t.buffer.write (t.view.getPhysicalIndex indices) x }

/-- Embedding of `TensorOrMemref::vectorAt(indices)`: same buffer, view
whose sizes and strides are the entries from position `rank()` on, offset
the physical index of the selected element, marked as a bare vector. -/
def TensorOrMemref.vectorAt {τ : Type} (t : TensorOrMemref τ)
    (indices : List Int) : TensorOrMemref τ :=
  { buffer := t.buffer,
    view :=
      { offset := t.view.getPhysicalIndex indices,
        sizes := t.view.sizes.drop t.view.rank.toNat,
        strides := t.view.strides.drop t.view.rank.toNat,
        numVectorDims := none,
        isVector := true } }

/-- Embedding of `TensorOrMemref::clone(layout)`: allocate with `emptyLike`
and copy every element by iterating the source and destination logical
index sequences (with vector dimensions) in lockstep. -/
def TensorOrMemref.clone {τ : Type} [Inhabited τ] (es : Nat)
    (t : TensorOrMemref τ) (layout : List Int) : TensorOrMemref τ :=
  let out := TensorOrMemref.emptyLike τ es t.view layout
  ((t.view.emitted true).zip (out.view.emitted true)).foldl
    (fun acc p => acc.store p.2 (t.atVal p.1)) out

/-- The element comparison inside `operator==`: for floating-point element
types two NaNs compare equal and a NaN never equals a non-NaN; otherwise
plain `!=`.  `isNaN` is `std::isnan` for floating-point `T` and constantly
false for other element types. -/
def elemEq {τ : Type} [DecidableEq τ] (isNaN : τ → Bool) (x y : τ) : Bool :=
  if isNaN x || isNaN y then isNaN x && isNaN y else decide (x = y)

/-- Embedding of `TensorOrMemref::operator==`: false if either buffer is
deallocated or the sizes or vector-dimension counts differ, otherwise an
element-wise comparison over `view.indices(true)`. -/
def TensorOrMemref.beq {τ : Type} [DecidableEq τ] [Inhabited τ]
    (isNaN : τ → Bool) (a b : TensorOrMemref τ) : Bool :=
  if a.buffer.deallocated || b.buffer.deallocated then false
  else if b.view.sizes ≠ a.view.sizes then false
  else if b.view.numVectorDims ≠ a.view.numVectorDims then false
  else (a.view.emitted true).all fun indices =>
    elemEq isNaN (a.atVal indices) (b.atVal indices)

/-- An abstract model of `float` sufficient for the claims about equality:
a value is either NaN or an exact (rational) number.  Only `std::isnan`
and `==` / `!=` on floats occur in the verified code, so no arithmetic is
modelled. -/
inductive F32 where
  | nan : F32
  | val : Rat → F32
deriving Repr, DecidableEq

instance : Inhabited F32 := ⟨F32.val 0⟩

/-- `std::isnan` on the float model. -/
def isNaNF32 : F32 → Bool
  | F32.nan => true
  | F32.val _ => false

/-- The operations of the `Buffer` interface, for stating lifecycle
invariants: element reads and writes (through `at`), `deallocate`, and the
observers `getByteSize` / `deallocated`. -/
inductive BufOp (τ : Type) where
  | readAt : Int → BufOp τ
  | writeAt : Int → τ → BufOp τ
  | deallocate : BufOp τ
  | getByteSize : BufOp τ
  | deallocated : BufOp τ

/-- The state transition of one interface operation.  Reads and observers
do not change the buffer; a write mutates storage only when the
deallocation assertion in `Buffer::at` passes; `deallocate` sets the
flag. -/
def Buffer.applyOp {τ : Type} (b : Buffer τ) : BufOp τ → Buffer τ
  | BufOp.readAt _ => b
  | BufOp.writeAt idx x => if b.isDeallocated then b else b.write idx x
  | BufOp.deallocate => b.deallocate
  | BufOp.getByteSize => b
  | BufOp.deallocated => b

/-- Running a sequence of interface operations. -/
def Buffer.applyOps {τ : Type} (b : Buffer τ) (ops : List (BufOp τ)) : Buffer τ :=
  ops.foldl Buffer.applyOp b

theorem elemEq_iff {τ : Type} [DecidableEq τ] (isNaN : τ → Bool) (x y : τ) :
    elemEq isNaN x y = true ↔
      (x = y ∨ (isNaN x = true ∧ isNaN y = true)) := by
  rw [elemEq]
  by_cases hxy : x = y
  · subst hxy
    by_cases hx : isNaN x = true <;> simp [hx]
  · cases hx : isNaN x <;> cases hy : isNaN y <;> simp [hx, hy, hxy]

theorem beq_iff {τ : Type} [DecidableEq τ] [Inhabited τ] (isNaN : τ → Bool)
    (a b : TensorOrMemref τ) :
    TensorOrMemref.beq isNaN a b = true ↔
      (a.buffer.deallocated = false ∧ b.buffer.deallocated = false ∧
        b.view.sizes = a.view.sizes ∧
        b.view.numVectorDims = a.view.numVectorDims ∧
        ∀ idx ∈ a.view.emitted true,
          a.atVal idx = b.atVal idx ∨
            (isNaN (a.atVal idx) = true ∧ isNaN (b.atVal idx) = true)) := by
  rw [TensorOrMemref.beq]
  split_ifs with h1 h2 h3
  · simp only [Bool.false_eq_true, false_iff]
    rintro ⟨ha, hb, -⟩
    rw [ha, hb] at h1
    simp at h1
  · simp only [Bool.false_eq_true, false_iff]
    rintro ⟨-, -, hs, -⟩
    exact h2 hs
  · simp only [Bool.false_eq_true, false_iff]
    rintro ⟨-, -, -, hn, -⟩
    exact h3 hn
  · rw [List.all_eq_true]
    simp only [Bool.or_eq_true, not_or, Bool.not_eq_true] at h1
    rw [not_not] at h2 h3
    constructor
    · intro hall
      exact ⟨h1.1, h1.2, h2, h3, fun idx hidx =>
        (elemEq_iff isNaN _ _).mp (hall idx hidx)⟩
    · rintro ⟨-, -, -, -, hel⟩
      intro idx hidx
      exact (elemEq_iff isNaN _ _).mpr (hel idx hidx)

/-- A single-element (rank-0) float tensor holding NaN. -/
def nanScalar : TensorOrMemref F32 :=
  { buffer := { storage := #[F32.nan], elemSize := 4 },
    view := { offset := 0, sizes := [], strides := [] } }

/-- A single-element (rank-0) float tensor holding 1.0. -/
def oneScalar : TensorOrMemref F32 :=
  { buffer := { storage := #[F32.val 1], elemSize := 4 },
    view := { offset := 0, sizes := [], strides := [] } }

/-- Claim C4: `operator==` is structural with NaN-tolerant element
comparison — two values compare equal iff neither buffer is deallocated,
the views have identical sizes and identical `numVectorDims`, and every
corresponding logical element (over `indices(true)`) compares equal, where
two NaN elements count as equal; in particular two single-element float
tensors both holding NaN compare equal, and NaN against 1.0 compares
unequal. -/
theorem C4_nan_tolerant_equality :
    (∀ (τ : Type) [DecidableEq τ] [Inhabited τ] (isNaN : τ → Bool)
        (a b : TensorOrMemref τ),
      TensorOrMemref.beq isNaN a b = true ↔
        (a.buffer.deallocated = false ∧ b.buffer.deallocated = false ∧
          b.view.sizes = a.view.sizes ∧
          b.view.numVectorDims = a.view.numVectorDims ∧
          ∀ idx ∈ a.view.emitted true,
            a.atVal idx = b.atVal idx ∨
              (isNaN (a.atVal idx) = true ∧ isNaN (b.atVal idx) = true))) ∧
    TensorOrMemref.beq isNaNF32 nanScalar nanScalar = true ∧
    TensorOrMemref.beq isNaNF32 nanScalar oneScalar = false :=
  ⟨fun _ _ _ => beq_iff, by decide, by decide⟩

/-- Claim C4, witness: the characterisation applied to a concrete
one-element integer tensor compared with itself. -/
theorem C4_witness :
    TensorOrMemref.beq (fun _ => false)
      ({ buffer := { storage := #[(7 : Int)], elemSize := 8 },
         view := { offset := 0, sizes := [], strides := [] } } :
        TensorOrMemref Int)
      { buffer := { storage := #[(7 : Int)], elemSize := 8 },
        view := { offset := 0, sizes := [], strides := [] } } = true :=
  (C4_nan_tolerant_equality.1 Int (fun _ => false) _ _).mpr
    ⟨rfl, rfl, rfl, rfl, by decide⟩

/-- Claim C5: for a well-formed tensor-of-vectors view (vector-dimension
count between 0 and the number of dimensions, sizes and strides of equal
length) and an in-bounds index tuple (the `assert` in `vectorAt`),
`vectorAt` returns a value sharing the buffer, whose view's sizes and
strides are exactly the trailing `numVectorDims` entries of the original
sizes and strides, whose offset is the physical index
`offset + Σ indices[i] * strides[i]` of the selected element, marked as a
vector with `numVectorDims` unset. -/
theorem C5_vectorAt {τ : Type} (t : TensorOrMemref τ) (indices : List Int)
    (hnvd0 : 0 ≤ t.view.numVectorDims.getD 0)
    (hnvdlen : t.view.numVectorDims.getD 0 ≤ (t.view.sizes.length : Int))
    (hlen : t.view.strides.length = t.view.sizes.length)
    (_hb : t.view.inBounds indices = true) :
    (t.vectorAt indices).buffer = t.buffer ∧
    (t.vectorAt indices).view.sizes =
      t.view.sizes.drop
        (t.view.sizes.length - (t.view.numVectorDims.getD 0).toNat) ∧
    (t.vectorAt indices).view.strides =
      t.view.strides.drop
        (t.view.strides.length - (t.view.numVectorDims.getD 0).toNat) ∧
    (t.vectorAt indices).view.offset =
      t.view.offset +
        ((indices.zip t.view.strides).map fun p => p.1 * p.2).sum ∧
    (t.vectorAt indices).view.isVector = true ∧
    (t.vectorAt indices).view.numVectorDims = none := by
  have hrank : t.view.rank.toNat =
      t.view.sizes.length - (t.view.numVectorDims.getD 0).toNat := by
    rw [BufferView.rank]
    omega
  exact ⟨rfl, by rw [TensorOrMemref.vectorAt, hrank],
    by rw [TensorOrMemref.vectorAt, hrank, hlen],
    rfl, rfl, rfl⟩

/-- Claim C5, witness: tensor shape [2,3] of vectors of shape [4] with
row-major strides; `vectorAt [1,2]` has sizes [4], strides [1], offset 20
(the physical index of element (1,2)), and is marked as a vector. -/
theorem C5_witness :
    (({ buffer := { storage := Array.mkArray 24 (0 : Int), elemSize := 8 },
        view := { offset := 0, sizes := [2, 3, 4], strides := [12, 4, 1],
                  numVectorDims := some 1 } } :
        TensorOrMemref Int).vectorAt [1, 2]).view.sizes = [4] ∧
    (({ buffer := { storage := Array.mkArray 24 (0 : Int), elemSize := 8 },
        view := { offset := 0, sizes := [2, 3, 4], strides := [12, 4, 1],
                  numVectorDims := some 1 } } :
        TensorOrMemref Int).vectorAt [1, 2]).view.offset = 20 := by
  have h := C5_vectorAt
    ({ buffer := { storage := Array.mkArray 24 (0 : Int), elemSize := 8 },
       view := { offset := 0, sizes := [2, 3, 4], strides := [12, 4, 1],
                 numVectorDims := some 1 } } : TensorOrMemref Int)
    [1, 2] (by decide) (by decide) (by decide) (by decide)
  exact ⟨h.2.1.trans (by decide), h.2.2.2.1.trans (by decide)⟩

/-- Claim C7, counterexample: `BufferView` is a plain aggregate with no
constructor check, so a view with `numVectorDims = 3` and no dimensions is
constructible and its `rank()` is the negative value -3 — nothing fails
fast. -/
theorem C7_counterexample :
    ({ offset := 0, sizes := [], strides := [],
       numVectorDims := some 3 } : BufferView).rank = -3 ∧
    ({ offset := 0, sizes := [], strides := [],
       numVectorDims := some 3 } : BufferView).rank < 0 := by
  constructor <;> decide

/-- Claim C7 (amended): `rank()` always equals `sizes.length` minus
`numVectorDims.value_or(0)`, and it is nonnegative whenever
`numVectorDims` does not exceed `sizes.length`; no constructor assertion
exists, so a view violating that bound simply has a negative rank. -/
theorem C7_rank (v : BufferView)
    (h : v.numVectorDims.getD 0 ≤ (v.sizes.length : Int)) :
    v.rank = (v.sizes.length : Int) - v.numVectorDims.getD 0 ∧ 0 ≤ v.rank := by
  refine ⟨rfl, ?_⟩
  rw [BufferView.rank]
  omega

/-- A 10x11x12 row-major view whose last dimension is a vector dimension. -/
def viewC7 : BufferView :=
  { offset := 0, sizes := [10, 11, 12], strides := [132, 12, 1],
    numVectorDims := some 1 }

/-- Claim C7, witness: a 10x11x12 view with one vector dimension has a
nonnegative rank (namely 2). -/
theorem C7_witness :
    (viewC7.numVectorDims.getD 0 ≤ (viewC7.sizes.length : Int)) ∧
    (0 : Int) ≤ viewC7.rank :=
  ⟨by decide, (C7_rank viewC7 (by decide)).2⟩

/-- Claim C8: element access is checked by fatal assertions —
`TensorOrMemref::at` fails its assertion exactly when the indices are out
of bounds, `Buffer::at` fails its assertion exactly when the buffer is
deallocated, and under the two preconditions the access succeeds and
yields the stored value. -/
theorem C8_assertion_checks :
    ∀ (τ : Type) [Inhabited τ] (t : TensorOrMemref τ) (indices : List Int)
      (b : Buffer τ) (idx : Int),
      ((t.atChecked indices).isSome =
        (t.view.inBounds indices && !t.buffer.deallocated)) ∧
      ((b.atChecked idx).isSome = !b.deallocated) ∧
      (t.view.inBounds indices = true → t.buffer.deallocated = false →
        t.atChecked indices = some (t.atVal indices)) ∧
      (t.view.inBounds indices = false → t.atChecked indices = none) ∧
      (t.buffer.deallocated = true → t.atChecked indices = none) := by
  intro τ _ t indices b idx
  refine ⟨?_, ?_, ?_, ?_, ?_⟩
  · rw [TensorOrMemref.atChecked, Buffer.atChecked]
    cases hin : t.view.inBounds indices <;>
      cases hde : t.buffer.deallocated <;>
        simp_all [Buffer.deallocated]
  · rw [Buffer.atChecked]
    cases hde : b.isDeallocated <;> simp_all [Buffer.deallocated]
  · intro hin hde
    rw [TensorOrMemref.atChecked, if_neg (by rw [hin]; simp),
      Buffer.atChecked, if_neg (by rw [Buffer.deallocated] at hde; rw [hde]; simp)]
    rfl
  · intro hin
    rw [TensorOrMemref.atChecked, if_pos hin]
  · intro hde
    rw [TensorOrMemref.atChecked, Buffer.atChecked]
    rw [Buffer.deallocated] at hde
    rw [hde]
    simp

/-- Claim C8, witness: in-bounds access on a live 2x3 buffer succeeds with
the stored value; the same access out of bounds or after deallocation
fails its assertion. -/
theorem C8_witness :
    ({ buffer := { storage := #[10, 20, 30, 40, 50, 60], elemSize := 8 },
       view := { offset := 0, sizes := [2, 3], strides := [3, 1] } } :
      TensorOrMemref Int).atChecked [1, 2] = some 60 := by
  have h := (C8_assertion_checks Int
    { buffer := { storage := #[10, 20, 30, 40, 50, 60], elemSize := 8 },
      view := { offset := 0, sizes := [2, 3], strides := [3, 1] } }
    [1, 2]
    { storage := #[(0 : Int)], elemSize := 8 } 0).2.2.1 (by decide) rfl
  rw [h]
  decide

theorem getNumElements_true (v : BufferView) :
    v.getNumElements true = v.sizes.prod := by
  rw [BufferView.getNumElements]
  simp

/-- Claim C9: `emptyLike(view, layout)` (and `empty(sizes, layout)`, which
calls it on a dummy view) allocates a fresh buffer of
`view.getNumElements(true)` elements of `sizeof(T) = es` bytes each — the
byte size is the product of all sizes entries (1 for an empty size list)
times the element size — and the returned view has offset 0 and strides
computed from `layout`, row-major (`getDefaultStrides`) when `layout` is
empty. -/
theorem C9_emptyLike :
    ∀ (τ : Type) [Inhabited τ] (es : Nat) (view : BufferView)
      (layout : List Int),
      (0 ≤ view.sizes.prod →
        (TensorOrMemref.emptyLike τ es view layout).buffer.getByteSize =
          view.sizes.prod * es) ∧
      (TensorOrMemref.emptyLike τ es view layout).buffer.deallocated = false ∧
      (TensorOrMemref.emptyLike τ es view layout).view.offset = 0 ∧
      (TensorOrMemref.emptyLike τ es view layout).view.sizes = view.sizes ∧
      (TensorOrMemref.emptyLike τ es view layout).view.strides =
        BufferView.getStridesForLayout view.sizes layout ∧
      (layout = [] →
        (TensorOrMemref.emptyLike τ es view layout).view.strides =
          BufferView.getDefaultStrides view.sizes) ∧
      TensorOrMemref.empty τ es view.sizes layout =
        TensorOrMemref.emptyLike τ es
          { offset := 0, sizes := view.sizes, strides := [] } layout := by
  intro τ _ es view layout
  refine ⟨?_, rfl, rfl, rfl, rfl, ?_, rfl⟩
  · intro hp
    rw [TensorOrMemref.emptyLike]
    simp only [Buffer.allocate, Buffer.getByteSize, Array.size_mkArray]
    rw [getNumElements_true]
    push_cast
    rw [Int.toNat_of_nonneg hp]
  · intro h
    subst h
    rw [TensorOrMemref.emptyLike]
    simp only [BufferView.getStridesForLayout, List.isEmpty_nil, if_pos]

/-- Claim C9, witness: a fresh 2x3 int64 tensor occupies 6 * 8 = 48 bytes
with offset 0 and row-major strides [3, 1]. -/
theorem C9_witness :
    (0 : Int) ≤ ([2, 3] : List Int).prod ∧
    (TensorOrMemref.empty Int 8 [2, 3] []).buffer.getByteSize = 48 ∧
    (TensorOrMemref.empty Int 8 [2, 3] []).view.strides = [3, 1] := by
  have h := C9_emptyLike Int 8
    { offset := 0, sizes := [2, 3], strides := [] } []
  refine ⟨by decide, ?_, ?_⟩
  · rw [TensorOrMemref.empty]
    exact (h.1 (by decide)).trans (by decide)
  · rw [TensorOrMemref.empty]
    exact (h.2.2.2.2.2.1 rfl).trans (by decide)

theorem applyOp_keeps_deallocated {τ : Type} (b : Buffer τ) (op : BufOp τ)
    (h : b.isDeallocated = true) : (b.applyOp op).isDeallocated = true := by
  cases op with
  | readAt idx => exact h
  | writeAt idx x => rw [Buffer.applyOp, if_pos h]; exact h
  | deallocate => rfl
  | getByteSize => exact h
  | deallocated => exact h

/-- Claim C10: deallocation is irreversible and idempotent — after
`deallocate()` the flag reads true after any further sequence of interface
operations (nothing resets it), a second `deallocate()` changes nothing,
and `deallocate()` affects nothing but the flag: the stored elements and
`getByteSize()` are unchanged. -/
theorem C10_deallocate_irreversible :
    ∀ (τ : Type) (b : Buffer τ) (ops : List (BufOp τ)),
      ((b.deallocate.applyOps ops).deallocated = true) ∧
      b.deallocate.deallocate = b.deallocate ∧
      b.deallocate.storage = b.storage ∧
      b.deallocate.getByteSize = b.getByteSize := by
  intro τ b ops
  refine ⟨?_, rfl, rfl, rfl⟩
  rw [Buffer.deallocated]
  have main : ∀ (l : List (BufOp τ)) (c : Buffer τ), c.isDeallocated = true →
      (Buffer.applyOps c l).isDeallocated = true := by
    intro l
    induction l with
    | nil => intro c hc; exact hc
    | cons op rest ih =>
      intro c hc
      rw [Buffer.applyOps, List.foldl_cons]
      exact ih (c.applyOp op) (applyOp_keeps_deallocated c op hc)
  exact main ops b.deallocate rfl

/-- Modelled from the spec: `BufferView::subview(offsets, sizes, strides)`
(out-of-line definition not in this excerpt).  The C++ function returns a
success boolean and mutates the view; it is modelled as returning
`Option BufferView`.  Per spec 4.1 it applies an independent
offset/size/stride triple per dimension (the general form of `slice`:
offsets fold into the view offset via the physical index, sizes are
replaced, strides are multiplied) and reports failure when the requested
region would be invalid — any requested size exceeding the current bound
after accounting for the requested stride; per spec 9 the ambiguous cases
are treated conservatively (mismatched lengths, negative offsets or sizes,
or nonpositive strides are rejected). -/
def BufferView.subview (v : BufferView) (subviewoffsets subviewsizes
    subviewstrides : List Int) : Option BufferView :=
  if subviewoffsets.length = v.sizes.length ∧
      subviewsizes.length = v.sizes.length ∧
      subviewstrides.length = v.sizes.length ∧
      ((subviewoffsets.zip
          (subviewsizes.zip (subviewstrides.zip v.sizes))).all fun q =>
        decide (0 ≤ q.1) && decide (0 ≤ q.2.1) && decide (1 ≤ q.2.2.1) &&
        decide (q.1 + (q.2.1 - 1) * q.2.2.1 < q.2.2.2)) = true then
    some { offset := v.getPhysicalIndex subviewoffsets,
           sizes := subviewsizes,
           strides := List.zipWith (fun a b => a * b) v.strides subviewstrides,
           numVectorDims := v.numVectorDims,
           isVector := v.isVector }
  else none

/-- The parent-view coordinates selected by a tuple of a subview. -/
def subviewCoords (subviewoffsets subviewstrides idx : List Int) : List Int :=
  List.zipWith (fun o q => o + q) subviewoffsets
    (List.zipWith (fun a b => a * b) idx subviewstrides)

/-- Claim C6: `subview` reports failure (no view) whenever the requested
region would be invalid and never produces an out-of-bounds view: when it
succeeds, every in-bounds tuple of the resulting view selects parent
coordinates that are in bounds for the original view; in particular on a
dimension of size 5, a subview of size 6 at offset 0 fails. -/
theorem C6_subview_bounds :
    (∀ (v : BufferView) (offs szs sts : List Int) (v2 : BufferView),
      v.subview offs szs sts = some v2 →
      ∀ idx : List Int,
        List.Forall₂ (fun d s => 0 ≤ d ∧ d < s) idx szs →
        List.Forall₂ (fun d s => 0 ≤ d ∧ d < s)
          (subviewCoords offs sts idx) v.sizes) ∧
    ({ offset := 0, sizes := [5], strides := [1] } : BufferView).subview
      [0] [6] [1] = none := by
  constructor
  · intro v offs szs sts v2 hsome idx hidx
    rw [BufferView.subview] at hsome
    split_ifs at hsome with hc
    obtain ⟨hlo, hls, hlt, hbound⟩ := hc
    rw [List.all_eq_true] at hbound
    obtain ⟨hlen, hget⟩ := List.forall₂_iff_get.mp hidx
    refine List.forall₂_iff_get.mpr ⟨?_, ?_⟩
    · rw [subviewCoords]
      simp only [List.length_zipWith]
      omega
    · intro k h1 h2
      simp only [subviewCoords, List.length_zipWith] at h1
      have hk : k < v.sizes.length := h2
      have hzk : k < (offs.zip (szs.zip (sts.zip v.sizes))).length := by
        simp only [List.length_zip]
        omega
      have hx := hbound _ (List.getElem_mem hzk)
      rw [List.getElem_zip, List.getElem_zip, List.getElem_zip] at hx
      simp only [Bool.and_eq_true, decide_eq_true_eq] at hx
      obtain ⟨⟨⟨hko, hks⟩, hkt⟩, hkb⟩ := hx
      have hidxk := hget k (by omega) (by omega)
      simp only [List.get_eq_getElem] at hidxk ⊢
      simp only [subviewCoords, List.getElem_zipWith]
      constructor
      · have h5 : 0 ≤ idx[k] * sts[k] :=
          mul_nonneg hidxk.1 (by omega)
        omega
      · have h6 : idx[k] * sts[k] ≤ (szs[k] - 1) * sts[k] :=
          mul_le_mul_of_nonneg_right (by omega) (by omega)
        omega
  · decide

/-- Claim C6, witness: on a dimension of size 5, the subview at offset 1 of
size 2 with stride 2 succeeds, and its single in-bounds coordinates 0 and 1
select the in-bounds parent coordinates 1 and 3. -/
theorem C6_witness :
    List.Forall₂ (fun d s => 0 ≤ d ∧ d < s)
      (subviewCoords [1] [2] [1]) [5] := by
  refine C6_subview_bounds.1
    { offset := 0, sizes := [5], strides := [1] } [1] [2] [2]
    { offset := 1, sizes := [2], strides := [2] } (by decide) [1] ?_
  exact List.forall₂_cons.mpr ⟨⟨by decide, by decide⟩, List.Forall₂.nil⟩

/-- The value of a mixed-radix digit list, fastest digit first. -/
def colexVal : List Int → List Int → Int
  | [], _ => 0
  | _ :: _, [] => 0
  | d :: ds, r :: rs => d + r * colexVal ds rs

theorem colexVal_nonneg : ∀ {ds rs : List Int},
    List.Forall₂ (fun d r => 0 ≤ d ∧ d < r) ds rs → 0 ≤ colexVal ds rs := by
  intro ds
  induction ds with
  | nil => intro rs _; cases rs <;> simp [colexVal]
  | cons d dt ih =>
    intro rs h
    cases rs with
    | nil => exact absurd h (by simp)
    | cons r rt =>
      obtain ⟨⟨hd0, hdr⟩, ht⟩ := List.forall₂_cons.mp h
      rw [colexVal]
      have h1 : 0 ≤ colexVal dt rt := ih ht
      have h2 : 0 ≤ r * colexVal dt rt := mul_nonneg (by omega) h1
      omega

theorem colexVal_lt : ∀ {ds rs : List Int},
    List.Forall₂ (fun d r => 0 ≤ d ∧ d < r) ds rs →
    colexVal ds rs < rs.prod := by
  intro ds
  induction ds with
  | nil =>
    intro rs h
    have : rs = [] := List.forall₂_nil_left_iff.mp h
    subst this
    simp [colexVal]
  | cons d dt ih =>
    intro rs h
    cases rs with
    | nil => exact absurd h (by simp)
    | cons r rt =>
      obtain ⟨⟨hd0, hdr⟩, ht⟩ := List.forall₂_cons.mp h
      rw [colexVal, List.prod_cons]
      have h1 : colexVal dt rt < rt.prod := ih ht
      have h0 : 0 ≤ colexVal dt rt := colexVal_nonneg ht
      have h2 : r * (colexVal dt rt + 1) ≤ r * rt.prod :=
        mul_le_mul_of_nonneg_left (by omega) (by omega)
      nlinarith

theorem colexVal_inj : ∀ (rs ds ds' : List Int),
    List.Forall₂ (fun d r => 0 ≤ d ∧ d < r) ds rs →
    List.Forall₂ (fun d r => 0 ≤ d ∧ d < r) ds' rs →
    colexVal ds rs = colexVal ds' rs → ds = ds' := by
  intro rs
  induction rs with
  | nil =>
    intro ds ds' h h' _
    rw [List.forall₂_nil_right_iff.mp h, List.forall₂_nil_right_iff.mp h']
  | cons r rt ih =>
    intro ds ds' h h' heq
    obtain ⟨d, dt, ⟨hd0, hdr⟩, ht, rfl⟩ := List.forall₂_cons_right_iff.mp h
    obtain ⟨e, et, ⟨he0, her⟩, ht', rfl⟩ := List.forall₂_cons_right_iff.mp h'
    rw [colexVal, colexVal] at heq
    have hv0 : 0 ≤ colexVal dt rt := colexVal_nonneg ht
    have hw0 : 0 ≤ colexVal et rt := colexVal_nonneg ht'
    have hde : d = e := by
      have h1 : (d + r * colexVal dt rt) % r = d := by
        rw [Int.add_mul_emod_self_left, Int.emod_eq_of_lt hd0 hdr]
      have h2 : (e + r * colexVal et rt) % r = e := by
        rw [Int.add_mul_emod_self_left, Int.emod_eq_of_lt he0 her]
      rw [← h1, ← h2, heq]
    subst hde
    have hv : colexVal dt rt = colexVal et rt := by
      have hr0 : r ≠ 0 := by omega
      have := heq
      have h3 : r * colexVal dt rt = r * colexVal et rt := by omega
      exact mul_left_cancel₀ hr0 h3
    rw [ih dt et ht ht' hv]

/-- The stride-weighted sum inside `getPhysicalIndex`, without the offset. -/
def physSum (idx strides : List Int) : Int :=
  ((idx.zip strides).map fun p => p.1 * p.2).sum

theorem getPhysicalIndex_eq (v : BufferView) (idx : List Int) :
    v.getPhysicalIndex idx = v.offset + physSum idx v.strides := rfl

theorem sizes_pos_of_forall₂ {ds sizes : List Int}
    (h : List.Forall₂ (fun d s => 0 ≤ d ∧ d < s) ds sizes) :
    ∀ s ∈ sizes, 0 < s := by
  induction h with
  | nil => simp
  | cons hrel _ ih =>
    intro s hs
    rcases List.mem_cons.mp hs with hs | hs
    · omega
    · exact ih s hs

theorem physSum_default_bounds : ∀ (sizes ds : List Int),
    List.Forall₂ (fun d s => 0 ≤ d ∧ d < s) ds sizes →
    0 ≤ physSum ds (BufferView.getDefaultStrides sizes) ∧
      physSum ds (BufferView.getDefaultStrides sizes) < sizes.prod := by
  intro sizes
  induction sizes with
  | nil =>
    intro ds h
    rw [List.forall₂_nil_right_iff.mp h]
    simp [physSum]
  | cons s ss ih =>
    intro ds h
    obtain ⟨d, dt, hrel, hrest, rfl⟩ := List.forall₂_cons_right_iff.mp h
    have hP : 0 < ss.prod :=
      List.prod_pos (sizes_pos_of_forall₂ hrest)
    obtain ⟨ih0, ihlt⟩ := ih dt hrest
    rw [BufferView.getDefaultStrides]
    have hstep : physSum (d :: dt) (ss.prod :: BufferView.getDefaultStrides ss)
        = d * ss.prod + physSum dt (BufferView.getDefaultStrides ss) := by
      rw [physSum, physSum, List.zip_cons_cons, List.map_cons, List.sum_cons]
    rw [hstep, List.prod_cons]
    constructor
    · have : 0 ≤ d * ss.prod := mul_nonneg (by omega) (by omega)
      omega
    · have h2 : (d + 1) * ss.prod ≤ s * ss.prod :=
        mul_le_mul_of_nonneg_right (by omega) (by omega)
      nlinarith

theorem physSum_default_inj : ∀ (sizes ds ds' : List Int),
    List.Forall₂ (fun d s => 0 ≤ d ∧ d < s) ds sizes →
    List.Forall₂ (fun d s => 0 ≤ d ∧ d < s) ds' sizes →
    physSum ds (BufferView.getDefaultStrides sizes)
      = physSum ds' (BufferView.getDefaultStrides sizes) →
    ds = ds' := by
  intro sizes
  induction sizes with
  | nil =>
    intro ds ds' h h' _
    rw [List.forall₂_nil_right_iff.mp h, List.forall₂_nil_right_iff.mp h']
  | cons s ss ih =>
    intro ds ds' h h' heq
    obtain ⟨d, dt, hrel, hrest, rfl⟩ := List.forall₂_cons_right_iff.mp h
    obtain ⟨e, et, hrel', hrest', rfl⟩ := List.forall₂_cons_right_iff.mp h'
    have hP : 0 < ss.prod := List.prod_pos (sizes_pos_of_forall₂ hrest)
    obtain ⟨hv0, hvlt⟩ := physSum_default_bounds ss dt hrest
    obtain ⟨hw0, hwlt⟩ := physSum_default_bounds ss et hrest'
    rw [BufferView.getDefaultStrides] at heq
    have hstep : ∀ (x : Int) (xt : List Int),
        physSum (x :: xt) (ss.prod :: BufferView.getDefaultStrides ss)
          = x * ss.prod + physSum xt (BufferView.getDefaultStrides ss) := by
      intro x xt
      rw [physSum, physSum, List.zip_cons_cons, List.map_cons, List.sum_cons]
    rw [hstep, hstep] at heq
    have hde : d = e := by
      rcases lt_trichotomy d e with hlt | hde | hgt
      · exfalso
        have h2 : (d + 1) * ss.prod ≤ e * ss.prod :=
          mul_le_mul_of_nonneg_right (by omega) (by omega)
        nlinarith
      · exact hde
      · exfalso
        have h2 : (e + 1) * ss.prod ≤ d * ss.prod :=
          mul_le_mul_of_nonneg_right (by omega) (by omega)
        nlinarith
    subst hde
    have hv : physSum dt (BufferView.getDefaultStrides ss)
        = physSum et (BufferView.getDefaultStrides ss) := by omega
    rw [ih dt et hrest hrest' hv]

/-- The stride assigned to dimension `j0` by a minor-to-major layout: the
product of the sizes of the dimensions listed before `j0`. -/
def strideOf (sizes layout : List Int) (j0 : Int) : Int :=
  ((layout.takeWhile fun j => j ≠ j0).map fun j => sizes.getD j.toNat 1).prod

theorem getStridesForLayout_ne (sizes layout : List Int) (h : layout ≠ []) :
    BufferView.getStridesForLayout sizes layout =
      (List.range sizes.length).map fun (d : Nat) =>
        strideOf sizes layout (d : Int) := by
  rw [BufferView.getStridesForLayout, if_neg (by simpa using h)]
  rfl

/-- Sum of digit-times-stride over a duplicate-free layout is the colex
value of the digits read off in minor-to-major order. -/
theorem layout_sum (sizes idx : List Int) : ∀ layout : List Int, layout.Nodup →
    (layout.map fun j => idx.getD j.toNat 0 * strideOf sizes layout j).sum =
      colexVal (layout.map fun j => idx.getD j.toNat 0)
        (layout.map fun j => sizes.getD j.toNat 1) := by
  intro layout
  induction layout with
  | nil => simp [colexVal]
  | cons j rest ih =>
    intro hnd
    have hjrest : j ∉ rest := (List.nodup_cons.mp hnd).1
    have hrest : rest.Nodup := (List.nodup_cons.mp hnd).2
    have hhead : strideOf sizes (j :: rest) j = 1 := by
      rw [strideOf, List.takeWhile_cons_of_neg (by simp)]
      rfl
    have htail : ∀ d ∈ rest, strideOf sizes (j :: rest) d =
        sizes.getD j.toNat 1 * strideOf sizes rest d := by
      intro d hd
      have hjd : j ≠ d := fun h => hjrest (h ▸ hd)
      rw [strideOf, strideOf, List.takeWhile_cons_of_pos (by simpa using hjd),
        List.map_cons, List.prod_cons]
    rw [List.map_cons, List.sum_cons, hhead, mul_one, List.map_cons,
      List.map_cons, colexVal, ← ih hrest]
    congr 1
    have hmap : (rest.map fun d =>
          idx.getD d.toNat 0 * strideOf sizes (j :: rest) d)
        = rest.map fun d =>
            sizes.getD j.toNat 1 * (idx.getD d.toNat 0 * strideOf sizes rest d) :=
      List.map_congr_left fun d hd => by rw [htail d hd]; ring
    rw [hmap, List.sum_map_mul_left]

/-- Zipping a list with the image of `range` under a stride function sums
elementwise products. -/
theorem physSum_range_map : ∀ (idx : List Int) (n : Nat) (f : Nat → Int),
    idx.length = n →
    physSum idx ((List.range n).map f) =
      ((List.range n).map fun k => idx.getD k 0 * f k).sum := by
  intro idx
  induction idx with
  | nil =>
    intro n f hn
    subst hn
    simp [physSum]
  | cons d dt ih =>
    intro n f hn
    subst hn
    rw [List.length_cons, List.range_succ_eq_map, List.map_cons, physSum,
      List.zip_cons_cons, List.map_cons, List.sum_cons, List.map_cons,
      List.sum_cons]
    simp only [List.getD_cons_zero, List.map_map]
    congr 1
    have h1 := ih dt.length (fun k => f (k + 1)) rfl
    rw [physSum] at h1
    have h2 : (List.range dt.length).map (f ∘ Nat.succ) =
        (List.range dt.length).map fun k => f (k + 1) := rfl
    rw [h2, h1]
    exact congrArg List.sum
      (List.map_congr_left fun k hk => by simp [Function.comp])

/-- Reading every position of a list back with `getD` reproduces it. -/
theorem map_getD_range (d : Int) : ∀ l : List Int,
    (List.range l.length).map (fun k => l.getD k d) = l := by
  intro l
  induction l with
  | nil => simp
  | cons a t ih =>
    have h2 : ((fun k => (a :: t).getD k d) ∘ Nat.succ) =
        fun k => t.getD k d := by
      funext k
      simp
    rw [List.length_cons, List.range_succ_eq_map, List.map_cons,
      List.getD_cons_zero, List.map_map, h2, ih]

/-- A layout is a valid minor-to-major permutation of `n` dimensions:
nonnegative entries whose values are a permutation of `0..n-1`. -/
def IsPermLayout (n : Nat) (layout : List Int) : Prop :=
  (∀ j ∈ layout, 0 ≤ j) ∧ List.Perm (layout.map Int.toNat) (List.range n)

theorem IsPermLayout.nodup {n : Nat} {layout : List Int}
    (h : IsPermLayout n layout) : layout.Nodup :=
  List.Nodup.of_map Int.toNat (h.2.nodup_iff.mpr (List.nodup_range n))

theorem IsPermLayout.length_eq {n : Nat} {layout : List Int}
    (h : IsPermLayout n layout) : layout.length = n := by
  have := h.2.length_eq
  simpa using this

theorem IsPermLayout.mem_lt {n : Nat} {layout : List Int}
    (h : IsPermLayout n layout) : ∀ j ∈ layout, j.toNat < n := by
  intro j hj
  have : j.toNat ∈ List.range n := h.2.mem_iff.mp (List.mem_map_of_mem _ hj)
  simpa using this

theorem IsPermLayout.covers {n : Nat} {layout : List Int}
    (h : IsPermLayout n layout) : ∀ d < n, ∃ j ∈ layout, j.toNat = d := by
  intro d hd
  have : d ∈ layout.map Int.toNat := h.2.mem_iff.mpr (by simpa using hd)
  simpa using this

theorem physSum_layout_colex (sizes idx layout : List Int)
    (hp : IsPermLayout sizes.length layout) (hne : layout ≠ [])
    (hlen : idx.length = sizes.length) :
    physSum idx (BufferView.getStridesForLayout sizes layout) =
      colexVal (layout.map fun j => idx.getD j.toNat 0)
        (layout.map fun j => sizes.getD j.toNat 1) := by
  rw [getStridesForLayout_ne sizes layout hne,
    physSum_range_map idx sizes.length _ hlen]
  have hsum : ((List.range sizes.length).map fun k =>
        idx.getD k 0 * strideOf sizes layout (k : Int)).sum
      = ((layout.map Int.toNat).map fun k =>
          idx.getD k 0 * strideOf sizes layout (k : Int)).sum :=
    ((hp.2.map fun k => idx.getD k 0 * strideOf sizes layout (k : Int)).sum_eq).symm
  rw [hsum, List.map_map]
  have hmap : layout.map
        ((fun k : Nat => idx.getD k 0 * strideOf sizes layout (k : Int)) ∘
          Int.toNat)
      = layout.map fun j => idx.getD j.toNat 0 * strideOf sizes layout j :=
    List.map_congr_left fun j hj => by
      simp only [Function.comp]
      rw [Int.toNat_of_nonneg (hp.1 j hj)]
  rw [hmap, layout_sum sizes idx layout hp.nodup]

theorem bounds_getD {ds sizes : List Int}
    (h : List.Forall₂ (fun d s => 0 ≤ d ∧ d < s) ds sizes) :
    ∀ k < sizes.length, 0 ≤ ds.getD k 0 ∧ ds.getD k 0 < sizes.getD k 0 := by
  obtain ⟨hlen, hget⟩ := List.forall₂_iff_get.mp h
  intro k hk
  have h1 := hget k (by omega) hk
  simp only [List.get_eq_getElem] at h1
  rw [List.getD_eq_getElem ds 0 (by omega),
    List.getD_eq_getElem sizes 0 (by omega)]
  exact h1

theorem list_ext_getD {l l' : List Int} (hlen : l.length = l'.length)
    (h : ∀ k < l.length, l.getD k 0 = l'.getD k 0) : l = l' := by
  refine List.ext_getElem hlen ?_
  intro i h1 h2
  have := h i h1
  rw [List.getD_eq_getElem l 0 h1, List.getD_eq_getElem l' 0 h2] at this
  exact this

theorem layout_digit_bounds {sizes ds layout : List Int}
    (hp : IsPermLayout sizes.length layout)
    (h : List.Forall₂ (fun d s => 0 ≤ d ∧ d < s) ds sizes) :
    List.Forall₂ (fun d r => 0 ≤ d ∧ d < r)
      (layout.map fun j => ds.getD j.toNat 0)
      (layout.map fun j => sizes.getD j.toNat 1) := by
  refine List.forall₂_iff_get.mpr ⟨by simp, ?_⟩
  intro k h1 h2
  simp only [List.get_eq_getElem, List.getElem_map]
  simp only [List.length_map] at h1
  have hj : layout[k] ∈ layout := List.getElem_mem h1
  have hjn : layout[k].toNat < sizes.length := hp.mem_lt _ hj
  have hb := bounds_getD h layout[k].toNat hjn
  have hsz : sizes.getD layout[k].toNat 1 = sizes.getD layout[k].toNat 0 := by
    rw [List.getD_eq_getElem sizes 1 hjn, List.getD_eq_getElem sizes 0 hjn]
  rw [hsz]
  exact hb

theorem prod_layout_sizes {sizes layout : List Int}
    (hp : IsPermLayout sizes.length layout) :
    (layout.map fun j => sizes.getD j.toNat 1).prod = sizes.prod := by
  have h1 : layout.map (fun j => sizes.getD j.toNat 1)
      = (layout.map Int.toNat).map fun k => sizes.getD k 1 := by
    rw [List.map_map]
    rfl
  rw [h1, (hp.2.map fun k => sizes.getD k 1).prod_eq, map_getD_range]

/-- For an empty layout (row-major) or a permutation layout, the physical
index map of the freshly computed strides is nonnegative, bounded by the
total element count, and injective on in-bounds tuples. -/
theorem physOut_inj_range (sizes layout : List Int)
    (hlay : layout = [] ∨ IsPermLayout sizes.length layout) :
    (∀ ds, List.Forall₂ (fun d s => 0 ≤ d ∧ d < s) ds sizes →
      0 ≤ physSum ds (BufferView.getStridesForLayout sizes layout) ∧
      physSum ds (BufferView.getStridesForLayout sizes layout) < sizes.prod) ∧
    (∀ ds ds', List.Forall₂ (fun d s => 0 ≤ d ∧ d < s) ds sizes →
      List.Forall₂ (fun d s => 0 ≤ d ∧ d < s) ds' sizes →
      physSum ds (BufferView.getStridesForLayout sizes layout)
        = physSum ds' (BufferView.getStridesForLayout sizes layout) →
      ds = ds') := by
  by_cases hne : layout = []
  · subst hne
    have hdef : BufferView.getStridesForLayout sizes [] =
        BufferView.getDefaultStrides sizes := by
      rw [BufferView.getStridesForLayout, if_pos (by simp)]
    rw [hdef]
    exact ⟨fun ds h => physSum_default_bounds sizes ds h,
      fun ds ds' h h' => physSum_default_inj sizes ds ds' h h'⟩
  · have hp : IsPermLayout sizes.length layout := hlay.resolve_left hne
    constructor
    · intro ds h
      have hlen : ds.length = sizes.length := h.length_eq
      rw [physSum_layout_colex sizes ds layout hp hne hlen]
      have hdb := layout_digit_bounds hp h
      refine ⟨colexVal_nonneg hdb, ?_⟩
      have := colexVal_lt hdb
      rw [prod_layout_sizes hp] at this
      exact this
    · intro ds ds' h h' heq
      have hlen : ds.length = sizes.length := h.length_eq
      have hlen' : ds'.length = sizes.length := h'.length_eq
      rw [physSum_layout_colex sizes ds layout hp hne hlen,
        physSum_layout_colex sizes ds' layout hp hne hlen'] at heq
      have hmapeq := colexVal_inj _ _ _
        (layout_digit_bounds hp h) (layout_digit_bounds hp h') heq
      have hpt : ∀ j ∈ layout, ds.getD j.toNat 0 = ds'.getD j.toNat 0 :=
        List.map_inj_left.mp hmapeq
      refine list_ext_getD (by omega) ?_
      intro k hk
      obtain ⟨j, hj, hjk⟩ := hp.covers k (by omega)
      have := hpt j hj
      rw [hjk] at this
      exact this

theorem Buffer.size_write {τ : Type} (b : Buffer τ) (idx : Int) (x : τ) :
    (b.write idx x).storage.size = b.storage.size := by
  rw [Buffer.write]
  split_ifs <;> simp

theorem Buffer.flag_write {τ : Type} (b : Buffer τ) (idx : Int) (x : τ) :
    (b.write idx x).isDeallocated = b.isDeallocated := rfl

theorem Buffer.elemSize_write {τ : Type} (b : Buffer τ) (idx : Int) (x : τ) :
    (b.write idx x).elemSize = b.elemSize := rfl

theorem Buffer.read_write_self {τ : Type} [Inhabited τ] (b : Buffer τ)
    (idx : Int) (x : τ) (h0 : 0 ≤ idx) (hlt : idx.toNat < b.storage.size) :
    (b.write idx x).read idx = x := by
  rw [Buffer.write, Buffer.read, if_neg (by omega)]
  simp only [Array.getD_eq_get?]
  rw [Array.getElem?_setD_eq _ hlt]
  rfl

theorem Buffer.read_write_ne {τ : Type} [Inhabited τ] (b : Buffer τ)
    (idx jdx : Int) (x : τ) (h0 : 0 ≤ idx) (h1 : 0 ≤ jdx) (hne : idx ≠ jdx) :
    (b.write idx x).read jdx = b.read jdx := by
  rw [Buffer.write, Buffer.read, Buffer.read, if_neg (by omega)]
  simp only [Array.getD_eq_get?]
  congr 1
  rw [Array.setD]
  split_ifs with hsz
  · have hj : idx.toNat ≠ jdx.toNat := by omega
    exact Array.getElem?_set_ne b.storage ⟨idx.toNat, hsz⟩ x hj
  · rfl

/-- The emitted index sequence depends only on the sizes and the
vector-dimension count of the view. -/
theorem emitted_congr {v w : BufferView} (hs : v.sizes = w.sizes)
    (hn : v.numVectorDims = w.numVectorDims) (incl : Bool) :
    v.emitted incl = w.emitted incl := by
  have h1 : v.enumSizesRev incl = w.enumSizesRev incl := by
    rw [BufferView.enumSizesRev, BufferView.enumSizesRev, hs, hn]
  have h2 : v.getNumElements false = w.getNumElements false := by
    rw [BufferView.getNumElements, BufferView.getNumElements, hs, hn]
  have h3 : v.beginInd incl = w.beginInd incl := by
    rw [BufferView.beginInd, BufferView.beginInd, h2, BufferView.rank,
      BufferView.rank, hs, hn]
  have h4 : v.iterNext incl = w.iterNext incl := by
    funext t
    rw [BufferView.iterNext, BufferView.iterNext, h1]
  rw [BufferView.emitted, BufferView.emitted, h1, h3, h4]

theorem zip_same {α : Type} : ∀ l : List α, l.zip l = l.map fun x => (x, x) := by
  intro l
  induction l with
  | nil => rfl
  | cons a t ih => rw [List.zip_cons_cons, List.map_cons, ih]

/-- Reading back an unwritten position after a sequence of writes. -/
theorem foldl_write_read_other {τ : Type} [Inhabited τ]
    (phys : List Int → Int) (val : List Int → τ) :
    ∀ (L : List (List Int)) (b : Buffer τ) (p : Int), 0 ≤ p →
      (∀ j ∈ L, 0 ≤ phys j ∧ phys j ≠ p) →
      (L.foldl (fun bf u => bf.write (phys u) (val u)) b).read p = b.read p := by
  intro L
  induction L with
  | nil => intro b p _ _; rfl
  | cons u rest ih =>
    intro b p hp hall
    rw [List.foldl_cons]
    rw [ih (b.write (phys u) (val u)) p hp fun j hj => hall j (by simp [hj])]
    exact Buffer.read_write_ne b (phys u) p (val u)
      (hall u (by simp)).1 hp (hall u (by simp)).2

/-- After writing distinct in-range positions in sequence, each position
reads back the value written to it. -/
theorem foldl_write_read {τ : Type} [Inhabited τ]
    (phys : List Int → Int) (val : List Int → τ) :
    ∀ (L : List (List Int)) (b : Buffer τ), L.Nodup →
      (∀ i ∈ L, ∀ j ∈ L, phys i = phys j → i = j) →
      (∀ i ∈ L, 0 ≤ phys i ∧ (phys i).toNat < b.storage.size) →
      ∀ i ∈ L,
        (L.foldl (fun bf u => bf.write (phys u) (val u)) b).read (phys i)
          = val i := by
  intro L
  induction L with
  | nil => intro b _ _ _ i hi; exact absurd hi (by simp)
  | cons u rest ih =>
    intro b hnd hinj hrange i hi
    rw [List.foldl_cons]
    rcases List.mem_cons.mp hi with rfl | hirest
    · rw [foldl_write_read_other phys val rest (b.write (phys i) (val i))
        (phys i) (hrange i (by simp)).1 ?_]
      · exact Buffer.read_write_self b (phys i) (val i)
          (hrange i (by simp)).1 (hrange i (by simp)).2
      · intro j hj
        refine ⟨(hrange j (by simp [hj])).1, fun hji => ?_⟩
        have : j = i := hinj j (by simp [hj]) i (by simp) hji
        subst this
        exact (List.nodup_cons.mp hnd).1 hj
    · refine ih (b.write (phys u) (val u)) (List.nodup_cons.mp hnd).2
        (fun a ha c hc => hinj a (by simp [ha]) c (by simp [hc])) ?_ i hirest
      intro j hj
      rw [Buffer.size_write]
      exact hrange j (by simp [hj])

theorem foldl_write_flag {τ : Type} (val : List Int → τ)
    (phys : List Int → Int) :
    ∀ (L : List (List Int)) (b : Buffer τ),
      (L.foldl (fun bf u => bf.write (phys u) (val u)) b).isDeallocated
        = b.isDeallocated := by
  intro L
  induction L with
  | nil => intro b; rfl
  | cons u rest ih =>
    intro b
    rw [List.foldl_cons, ih]
    rfl

theorem foldl_store_struct {τ : Type} (val : List Int → τ) :
    ∀ (L : List (List Int)) (acc : TensorOrMemref τ),
      L.foldl (fun a i => a.store i (val i)) acc =
        { buffer := L.foldl
            (fun bf i => bf.write (acc.view.getPhysicalIndex i) (val i))
            acc.buffer,
          view := acc.view } := by
  intro L
  induction L with
  | nil => intro acc; rfl
  | cons i rest ih =>
    intro acc
    rw [List.foldl_cons, List.foldl_cons, ih]
    rfl

/-- Claim C3: cloning a live, well-formed tensor with any valid layout
(empty for row-major, or a permutation of the dimensions) produces a value
that compares equal to the original; and equality returns false whenever
either side's buffer is deallocated. -/
theorem C3_clone_roundtrip :
    (∀ (τ : Type) [DecidableEq τ] [Inhabited τ] (es : Nat) (isNaN : τ → Bool)
        (t : TensorOrMemref τ) (layout : List Int),
      t.buffer.deallocated = false →
      (∀ s ∈ t.view.sizes, 0 ≤ s) →
      0 ≤ t.view.numVectorDims.getD 0 →
      t.view.numVectorDims.getD 0 ≤ (t.view.sizes.length : Int) →
      (t.view.getNumElements true = 0 → t.view.getNumElements false = 0) →
      (layout = [] ∨ IsPermLayout t.view.sizes.length layout) →
      TensorOrMemref.beq isNaN (TensorOrMemref.clone es t layout) t = true) ∧
    (∀ (τ : Type) [DecidableEq τ] [Inhabited τ] (isNaN : τ → Bool)
        (a b : TensorOrMemref τ),
      a.buffer.deallocated = true ∨ b.buffer.deallocated = true →
      TensorOrMemref.beq isNaN a b = false) := by
  constructor
  · intro τ _ _ es isNaN t layout hdea hsz hnvd0 hnvdlen hzero hlay
    set out := TensorOrMemref.emptyLike τ es t.view layout with hout
    have hovs : out.view.sizes = t.view.sizes := rfl
    have hovn : out.view.numVectorDims = t.view.numVectorDims := rfl
    have hosz : out.buffer.storage.size = t.view.sizes.prod.toNat := by
      rw [hout, TensorOrMemref.emptyLike]
      simp only [Buffer.allocate, Array.size_mkArray]
      rw [getNumElements_true]
    have hemit : out.view.emitted true = t.view.emitted true :=
      emitted_congr hovs hovn true
    have hL : t.view.emitted true = enumIndices (t.view.enumSizes true) :=
      (emitted_spec t.view true hsz hnvd0 hnvdlen hzero).1
    have hES : t.view.enumSizes true = t.view.sizes := by
      rw [BufferView.enumSizes, if_pos rfl]
    have hphys : ∀ i : List Int, out.view.getPhysicalIndex i =
        physSum i (BufferView.getStridesForLayout t.view.sizes layout) := by
      intro i
      rw [getPhysicalIndex_eq]
      have h1 : out.view.offset = 0 := rfl
      have h2 : out.view.strides =
          BufferView.getStridesForLayout t.view.sizes layout := rfl
      rw [h1, h2, zero_add]
    obtain ⟨hrange, hinj⟩ := physOut_inj_range t.view.sizes layout hlay
    have hmemb : ∀ i ∈ t.view.emitted true,
        List.Forall₂ (fun d s => 0 ≤ d ∧ d < s) i t.view.sizes := by
      intro i hi
      rw [hL, hES] at hi
      exact (enum_mem t.view.sizes i).mp hi
    have hcl : TensorOrMemref.clone es t layout =
        (t.view.emitted true).foldl
          (fun acc i => acc.store i (t.atVal i)) out := by
      rw [TensorOrMemref.clone]
      rw [show (TensorOrMemref.emptyLike τ es t.view layout) = out from rfl]
      rw [hemit, zip_same, List.foldl_map]
    rw [hcl, foldl_store_struct]
    have hnodup : (t.view.emitted true).Nodup := by
      rw [hL, hES]
      exact enum_nodup _
    refine (beq_iff isNaN _ t).mpr ⟨?_, hdea, rfl, rfl, ?_⟩
    · rw [Buffer.deallocated]
      rw [show ∀ (B : Buffer τ) (V : BufferView),
          ({ buffer := B, view := V } : TensorOrMemref τ).buffer = B
          from fun _ _ => rfl]
      rw [foldl_write_flag]
      rfl
    · intro idx hidx
      left
      have hidx' : idx ∈ t.view.emitted true := by
        simpa using hidx
      rw [TensorOrMemref.atVal]
      have hreads := foldl_write_read (fun i => out.view.getPhysicalIndex i)
        (fun i => t.atVal i) (t.view.emitted true) out.buffer hnodup
        (fun i hi j hj hij =>
          hinj i j (hmemb i hi) (hmemb j hj)
            (by rw [← hphys i, ← hphys j]; exact hij))
        (fun i hi => by
          obtain ⟨h1, h2⟩ := hrange i (hmemb i hi)
          rw [← hphys i] at h1 h2
          refine ⟨h1, ?_⟩
          show (out.view.getPhysicalIndex i).toNat < out.buffer.storage.size
          rw [hosz]
          omega)
        idx hidx'
      exact hreads
  · intro τ _ _ isNaN a b h
    rw [TensorOrMemref.beq, if_pos]
    rcases h with h | h <;> rw [h] <;> simp

/-- A live 2x3 row-major integer tensor with distinct element values. -/
def cloneSample : TensorOrMemref Int :=
  { buffer := { storage := #[10, 20, 30, 40, 50, 60], elemSize := 8 },
    view := { offset := 0, sizes := [2, 3], strides := [3, 1] } }

/-- Claim C3, witness: cloning the concrete 2x3 tensor with the default
(row-major) layout compares equal to the original. -/
theorem C3_witness :
    cloneSample.buffer.deallocated = false ∧
    TensorOrMemref.beq (fun _ => false)
      (TensorOrMemref.clone 8 cloneSample []) cloneSample = true :=
  ⟨rfl, C3_clone_roundtrip.1 Int 8 (fun _ => false) cloneSample []
    rfl (by decide) (by decide) (by decide) (by decide) (Or.inl rfl)⟩

end TensorInterp
